import Mathlib

/-!
Verification of the thrill asynchronous network dispatcher
(thrill/net/dispatcher.hpp) and of the disk allocation strategy functors
(thrill/io/block_alloc_strategy.hpp), as a shallow embedding in Lean.

The embedding follows the C++ source closely:

* The four asynchronous transfer record classes (AsyncReadBuffer,
  AsyncWriteBuffer, AsyncReadByteBlock, AsyncWriteBlock) become structures
  whose readiness handler operator() is a pure step function over the record
  state.  The result of the external Connection::RecvOne / SendOne call is an
  input to the step function: an integer count r and the errno value.
  A C++ throw of net::Exception is modelled with Except.error carrying errno.
* The Dispatcher enqueue methods (AsyncRead, AsyncWrite and their block
  overloads) and the reaper loop in Dispatch() become functions on lists of
  records.
* The Timer priority queue is std::priority_queue over std::vector, whose
  push_heap / pop_heap algorithms (the libstdc++ implementations, validated
  against the real library) are embedded index by index.
-/

/-- POSIX errno value EINTR, tested by the readiness handlers. -/
def EINTR : Nat := 4

/-- POSIX errno value EAGAIN, tested by the readiness handlers. -/
def EAGAIN : Nat := 11

/-- POSIX errno value EPIPE, tested by the readiness handlers. -/
def EPIPE : Nat := 32

/-- POSIX errno value ECONNRESET, tested by the read handlers. -/
def ECONNRESET : Nat := 104

/-- Modelled from the spec: net::Buffer (thrill/net/buffer.hpp is not among
the sources under verification).  The spec describes it as a simple owned
byte vector with a size; only the size is relevant to the dispatcher record
logic, and moving a buffer out leaves an empty (size zero) buffer behind,
the ordinary move semantics of an owned byte vector. -/
structure Buffer where
  size : Nat
deriving DecidableEq

/-- State of Dispatcher::AsyncReadBuffer: the receive buffer (allocated with
the requested size n at enqueue), the cursor size_, whether a completion
callback was supplied (callback_ tested by `if (callback_)`), and a ghost
flag recording whether the payload buffer has been moved out to the
callback. -/
structure AsyncReadBuffer where
  buffer_ : Buffer
  size_ : Nat
  hasCb : Bool
  movedOut : Bool
deriving DecidableEq

/-- AsyncReadBuffer::IsDone from the source: size_ == buffer_.size(). -/
def AsyncReadBuffer.IsDone (s : AsyncReadBuffer) : Bool :=
  s.size_ == s.buffer_.size

/-- AsyncReadBuffer::operator(), the read readiness handler.  Inputs: the
result r of conn_->RecvOne and the errno value en; mv records whether the
user callback moves the delivered buffer out of its rvalue reference (the
source passes std::move(buffer_)).  Result: the boolean returned to the
multiplexer (true = stay registered) together with the new record state and
the size of the buffer delivered to the completion callback, if it fired;
Except.error en models the throw of net::Exception. -/
def AsyncReadBuffer.step (s : AsyncReadBuffer) (r : Int) (en : Nat) (mv : Bool) :
    Except Nat (AsyncReadBuffer × Bool × Option Nat) :=
  if r ≤ 0 then
    if en = EINTR ∨ en = EAGAIN then .ok (s, true, none)
    else
      let s1 : AsyncReadBuffer := { s with size_ := s.buffer_.size }
      if en = 0 ∨ en = EPIPE ∨ en = ECONNRESET then
        .ok (s1, false, if s1.hasCb then some 0 else none)
      else .error en
  else
    let s1 : AsyncReadBuffer := { s with size_ := s.size_ + r.toNat }
    if s1.size_ = s1.buffer_.size then
      .ok ({ s1 with
              buffer_ := if s1.hasCb && mv then ⟨0⟩ else s1.buffer_,
              movedOut := s1.movedOut || (s1.hasCb && mv) },
        false, if s1.hasCb then some s1.buffer_.size else none)
    else .ok (s1, true, none)

/-- State of Dispatcher::AsyncWriteBuffer: the owned send buffer (moved in at
enqueue, never moved out again), the cursor size_, and callback presence. -/
structure AsyncWriteBuffer where
  buffer_ : Buffer
  size_ : Nat
  hasCb : Bool
deriving DecidableEq

/-- AsyncWriteBuffer::IsDone from the source: size_ == buffer_.size(). -/
def AsyncWriteBuffer.IsDone (s : AsyncWriteBuffer) : Bool :=
  s.size_ == s.buffer_.size

/-- AsyncWriteBuffer::operator(), the write readiness handler; r and en are
the result of conn_->SendOne and errno.  The some 0 event records an
invocation of the completion callback (which receives only the connection). -/
def AsyncWriteBuffer.step (s : AsyncWriteBuffer) (r : Int) (en : Nat) :
    Except Nat (AsyncWriteBuffer × Bool × Option Nat) :=
  if r ≤ 0 then
    if en = EINTR ∨ en = EAGAIN then .ok (s, true, none)
    else
      let s1 : AsyncWriteBuffer := { s with size_ := s.buffer_.size }
      if en = EPIPE then .ok (s1, false, if s1.hasCb then some 0 else none)
      else .error en
  else
    let s1 : AsyncWriteBuffer := { s with size_ := s.size_ + r.toNat }
    if s1.size_ = s1.buffer_.size then
      .ok (s1, false, if s1.hasCb then some 0 else none)
    else .ok (s1, true, none)

/-- State of Dispatcher::AsyncReadByteBlock: block_ is the pinned block
pointer (none models the null pointer after the block has been moved out to
the callback; the Nat carried by some is the block size), pos_ the cursor
and size_ the total count to read. -/
structure AsyncReadByteBlock where
  block_ : Option Nat
  pos_ : Nat
  size_ : Nat
  hasCb : Bool
deriving DecidableEq

/-- AsyncReadByteBlock::IsDone from the source:
!block_ || pos_ == size_. -/
def AsyncReadByteBlock.IsDone (s : AsyncReadByteBlock) : Bool :=
  s.block_.isNone || s.pos_ == s.size_

/-- AsyncReadByteBlock::DoCallback: callback_(*conn_, std::move(block_)) runs
only when a callback is present; the pointer becomes null when the callee
moves from the rvalue reference (mv). -/
def AsyncReadByteBlock.docb (s : AsyncReadByteBlock) (mv : Bool) : AsyncReadByteBlock :=
  if s.hasCb && mv then { s with block_ := none } else s

/-- AsyncReadByteBlock::operator(), the block read readiness handler. -/
def AsyncReadByteBlock.step (s : AsyncReadByteBlock) (r : Int) (en : Nat) (mv : Bool) :
    Except Nat (AsyncReadByteBlock × Bool × Option Nat) :=
  if r ≤ 0 then
    if en = EINTR ∨ en = EAGAIN then .ok (s, true, none)
    else
      let s1 : AsyncReadByteBlock := { s with pos_ := s.size_ }
      if en = 0 ∨ en = EPIPE ∨ en = ECONNRESET then
        .ok (s1.docb mv, false, if s1.hasCb then some 0 else none)
      else .error en
  else
    let s1 : AsyncReadByteBlock := { s with pos_ := s.pos_ + r.toNat }
    if s1.pos_ = s1.size_ then
      .ok (s1.docb mv, false, if s1.hasCb then some 0 else none)
    else .ok (s1, true, none)

/-- State of Dispatcher::AsyncWriteBlock: the pinned block (held, never moved
out; only its size matters here), the cursor size_, and callback presence. -/
structure AsyncWriteBlock where
  block_ : Buffer
  size_ : Nat
  hasCb : Bool
deriving DecidableEq

/-- AsyncWriteBlock::IsDone from the source: size_ == block_.size(). -/
def AsyncWriteBlock.IsDone (s : AsyncWriteBlock) : Bool :=
  s.size_ == s.block_.size

/-- AsyncWriteBlock::operator(), the block write readiness handler. -/
def AsyncWriteBlock.step (s : AsyncWriteBlock) (r : Int) (en : Nat) :
    Except Nat (AsyncWriteBlock × Bool × Option Nat) :=
  if r ≤ 0 then
    if en = EINTR ∨ en = EAGAIN then .ok (s, true, none)
    else
      let s1 : AsyncWriteBlock := { s with size_ := s.block_.size }
      if en = EPIPE then .ok (s1, false, if s1.hasCb then some 0 else none)
      else .error en
  else
    let s1 : AsyncWriteBlock := { s with size_ := s.size_ + r.toNat }
    if s1.size_ = s1.block_.size then
      .ok (s1, false, if s1.hasCb then some 0 else none)
    else .ok (s1, true, none)

/-- Dispatcher::AsyncRead (buffer overload): given the current async_read_
queue, the requested byte count n and callback presence, returns the new
queue, whether the callback was invoked synchronously (the n == 0 short
circuit), and whether a read readiness callback was registered (AddRead). -/
def Dispatcher.asyncRead (q : List AsyncReadBuffer) (n : Nat) (hasCb : Bool) :
    List AsyncReadBuffer × Bool × Bool :=
  if n = 0 then (q, hasCb, false)
  else (q ++ [⟨⟨n⟩, 0, hasCb, false⟩], false, true)

/-- Dispatcher::AsyncRead (ByteBlock overload): the zero test in the source
is on block->size(), not on the requested count n; the record is emplaced
with cursor 0 and total n. -/
def Dispatcher.asyncReadBlock (q : List AsyncReadByteBlock) (n : Nat)
    (blockSize : Nat) (hasCb : Bool) : List AsyncReadByteBlock × Bool × Bool :=
  if blockSize = 0 then (q, hasCb, false)
  else (q ++ [⟨some blockSize, 0, n, hasCb⟩], false, true)

/-- Dispatcher::AsyncWrite (Buffer overload): if buffer.size() == 0 the
callback (when present) runs synchronously and the method returns; otherwise
the buffer is moved into a new record and AddWrite registers the handler. -/
def Dispatcher.asyncWrite (q : List AsyncWriteBuffer) (bufSize : Nat) (hasCb : Bool) :
    List AsyncWriteBuffer × Bool × Bool :=
  if bufSize = 0 then (q, hasCb, false)
  else (q ++ [⟨⟨bufSize⟩, 0, hasCb⟩], false, true)

/-- Dispatcher::AsyncWrite (PinnedBlock overload). -/
def Dispatcher.asyncWriteBlock (q : List AsyncWriteBlock) (blockSize : Nat) (hasCb : Bool) :
    List AsyncWriteBlock × Bool × Bool :=
  if blockSize = 0 then (q, hasCb, false)
  else (q ++ [⟨⟨blockSize⟩, 0, hasCb⟩], false, true)

/-- The reaper loop at the end of Dispatcher::Dispatch for async_read_:
while the front record IsDone, pop_front. -/
def Dispatcher.reapReads (q : List AsyncReadBuffer) : List AsyncReadBuffer :=
  q.dropWhile AsyncReadBuffer.IsDone

/-- The reaper loop for async_read_block_. -/
def Dispatcher.reapReadBlocks (q : List AsyncReadByteBlock) : List AsyncReadByteBlock :=
  q.dropWhile AsyncReadByteBlock.IsDone

/-- The reaper loop for async_write_. -/
def Dispatcher.reapWrites (q : List AsyncWriteBuffer) : List AsyncWriteBuffer :=
  q.dropWhile AsyncWriteBuffer.IsDone

/-- The reaper loop for async_write_block_. -/
def Dispatcher.reapWriteBlocks (q : List AsyncWriteBlock) : List AsyncWriteBlock :=
  q.dropWhile AsyncWriteBlock.IsDone

/-- Dispatcher::HasAsyncWrites from the source. -/
def Dispatcher.hasAsyncWrites (qw : List AsyncWriteBuffer) (qwb : List AsyncWriteBlock) : Bool :=
  qw.length != 0 || qwb.length != 0

/-- Turns the optional callback event of one handler invocation into a list
of delivered payload sizes. -/
def optList : Option Nat → List Nat
  | none => []
  | some k => [k]

/-- Drives one transfer record through a sequence of readiness events, the
way the multiplexer backend does: the handler runs once per event while it
keeps returning true (stay registered) and is not invoked again after it
returns false (deregister).  Returns the final record state, whether the
record is still registered, and the list of callback deliveries. -/
def runHandler {σ : Type} (st : σ → Int × Nat × Bool → Except Nat (σ × Bool × Option Nat)) :
    σ → List (Int × Nat × Bool) → Except Nat (σ × Bool × List Nat)
  | s, [] => .ok (s, true, [])
  | s, ev :: rest =>
    match st s ev with
    | .error e => .error e
    | .ok (s1, false, d) => .ok (s1, false, optList d)
    | .ok (s1, true, d) =>
      match runHandler st s1 rest with
      | .error e => .error e
      | .ok (s2, reg, ds) => .ok (s2, reg, optList d ++ ds)

/-- AsyncReadBuffer.step with the event triple curried, for runHandler. -/
def AsyncReadBuffer.stepEv (s : AsyncReadBuffer) (ev : Int × Nat × Bool) :
    Except Nat (AsyncReadBuffer × Bool × Option Nat) :=
  AsyncReadBuffer.step s ev.1 ev.2.1 ev.2.2

/-- AsyncReadByteBlock.step with the event triple curried, for runHandler. -/
def AsyncReadByteBlock.stepEv (s : AsyncReadByteBlock) (ev : Int × Nat × Bool) :
    Except Nat (AsyncReadByteBlock × Bool × Option Nat) :=
  AsyncReadByteBlock.step s ev.1 ev.2.1 ev.2.2

/-- AsyncWriteBuffer.step with the event triple curried (the third component
is unused: write callbacks receive only the connection), for runHandler. -/
def AsyncWriteBuffer.stepEv (s : AsyncWriteBuffer) (ev : Int × Nat × Bool) :
    Except Nat (AsyncWriteBuffer × Bool × Option Nat) :=
  AsyncWriteBuffer.step s ev.1 ev.2.1

/-- AsyncWriteBlock.step with the event triple curried, for runHandler. -/
def AsyncWriteBlock.stepEv (s : AsyncWriteBlock) (ev : Int × Nat × Bool) :
    Except Nat (AsyncWriteBlock × Bool × Option Nat) :=
  AsyncWriteBlock.step s ev.1 ev.2.1

/-! Helper lemmas about single handler invocations. -/

/-- A handler invocation of a not yet done buffer read record that returns
true (stay registered) fires no callback and leaves the record not done,
with buffer, callback presence and moved flag unchanged. -/
lemma arb_step_keep {s s1 : AsyncReadBuffer} {r : Int} {en : Nat} {mv : Bool}
    {d : Option Nat}
    (hdone : s.IsDone = false)
    (h : AsyncReadBuffer.step s r en mv = .ok (s1, true, d)) :
    d = none ∧ s1.buffer_ = s.buffer_ ∧ s1.hasCb = s.hasCb ∧
    s1.movedOut = s.movedOut ∧ s1.IsDone = false := by
  obtain ⟨⟨bsz⟩, sz, cb, mo⟩ := s
  simp only [AsyncReadBuffer.step] at h
  split_ifs at h with ha hb hc hd he hf hg <;>
  first
    | exact Except.noConfusion h
    | (simp only [Except.ok.injEq, Prod.mk.injEq] at h
       obtain ⟨hs, hbool, hd2⟩ := h
       first
         | exact Bool.noConfusion hbool
         | (subst hs
            refine ⟨hd2.symm, rfl, rfl, rfl, ?_⟩
            simp only [AsyncReadBuffer.IsDone, beq_eq_false_iff_ne, ne_eq] at hdone ⊢
            omega))

/-- A handler invocation of a buffer read record that returns false
(deregister) fires the callback exactly when one is present, delivers either
an empty buffer or the full buffer, and can change the moved flag from false
to true only by leaving the record in a state where IsDone is false. -/
lemma arb_step_dereg {s s1 : AsyncReadBuffer} {r : Int} {en : Nat} {mv : Bool}
    {d : Option Nat}
    (h : AsyncReadBuffer.step s r en mv = .ok (s1, false, d)) :
    s1.hasCb = s.hasCb ∧
    ((d = none ∧ s.hasCb = false) ∨
      (∃ v, d = some v ∧ s.hasCb = true ∧ (v = 0 ∨ v = s.buffer_.size))) ∧
    (s.movedOut = false → s1.movedOut = true → s1.IsDone = false) := by
  obtain ⟨⟨bsz⟩, sz, cb, mo⟩ := s
  simp only [AsyncReadBuffer.step] at h
  split_ifs at h with ha hb hc hd he hf hg hh
  · simp only [Except.ok.injEq, Prod.mk.injEq] at h
    exact Bool.noConfusion h.2.1
  · simp only [Except.ok.injEq, Prod.mk.injEq] at h
    obtain ⟨hs, -, hd2⟩ := h
    subst hs
    refine ⟨rfl, Or.inr ⟨0, hd2.symm, hd, Or.inl rfl⟩, ?_⟩
    intro hm hm1
    simp at hm hm1
    rw [hm] at hm1
    exact Bool.noConfusion hm1
  · simp only [Except.ok.injEq, Prod.mk.injEq] at h
    obtain ⟨hs, -, hd2⟩ := h
    subst hs
    refine ⟨rfl, Or.inl ⟨hd2.symm, by simp only [Bool.not_eq_true] at hd; exact hd⟩, ?_⟩
    intro hm hm1
    simp at hm hm1
    rw [hm] at hm1
    exact Bool.noConfusion hm1
  · simp only [Except.ok.injEq, Prod.mk.injEq] at h
    obtain ⟨hs, -, hd2⟩ := h
    subst hs
    refine ⟨rfl, Or.inr ⟨bsz, hd2.symm, hg, Or.inr rfl⟩, ?_⟩
    intro hm hm1
    simp [AsyncReadBuffer.IsDone]
    omega
  · simp only [Bool.and_eq_true] at hf
    exact absurd hf.1 hg
  · simp only [Except.ok.injEq, Prod.mk.injEq] at h
    obtain ⟨hs, -, hd2⟩ := h
    subst hs
    refine ⟨rfl, Or.inr ⟨bsz, hd2.symm, hh, Or.inr rfl⟩, ?_⟩
    intro hm hm1
    simp at hm hm1
    simp [hm] at hm1
    simp [hm1.1, hm1.2] at hf
  · simp only [Except.ok.injEq, Prod.mk.injEq] at h
    obtain ⟨hs, -, hd2⟩ := h
    subst hs
    refine ⟨rfl, Or.inl ⟨hd2.symm, by simp only [Bool.not_eq_true] at hh; exact hh⟩, ?_⟩
    intro hm hm1
    simp at hm hm1
    simp [hm] at hm1
    simp [hm1.1, hm1.2] at hf
  · simp only [Except.ok.injEq, Prod.mk.injEq] at h
    exact Bool.noConfusion h.2.1

/-- A handler invocation of a not yet done buffer write record that returns
true fires no callback and leaves the record not done, with buffer and
callback presence unchanged. -/
lemma awb_step_keep {s s1 : AsyncWriteBuffer} {r : Int} {en : Nat}
    {d : Option Nat}
    (hdone : s.IsDone = false)
    (h : AsyncWriteBuffer.step s r en = .ok (s1, true, d)) :
    d = none ∧ s1.buffer_ = s.buffer_ ∧ s1.hasCb = s.hasCb ∧ s1.IsDone = false := by
  obtain ⟨⟨bsz⟩, sz, cb⟩ := s
  simp only [AsyncWriteBuffer.step] at h
  split_ifs at h with ha hb hc hd he hf <;>
  first
    | exact Except.noConfusion h
    | (simp only [Except.ok.injEq, Prod.mk.injEq] at h
       obtain ⟨hs, hbool, hd2⟩ := h
       first
         | exact Bool.noConfusion hbool
         | (subst hs
            refine ⟨hd2.symm, rfl, rfl, ?_⟩
            simp only [AsyncWriteBuffer.IsDone, beq_eq_false_iff_ne, ne_eq] at hdone ⊢
            omega))

/-- A handler invocation of a buffer write record that returns false fires
the callback exactly when one is present, forces the cursor to the buffer
size (so the record is done), and leaves the buffer itself in place. -/
lemma awb_step_dereg {s s1 : AsyncWriteBuffer} {r : Int} {en : Nat}
    {d : Option Nat}
    (h : AsyncWriteBuffer.step s r en = .ok (s1, false, d)) :
    s1.hasCb = s.hasCb ∧ s1.buffer_ = s.buffer_ ∧ s1.size_ = s.buffer_.size ∧
    s1.IsDone = true ∧
    ((d = none ∧ s.hasCb = false) ∨ (d = some 0 ∧ s.hasCb = true)) := by
  obtain ⟨⟨bsz⟩, sz, cb⟩ := s
  simp only [AsyncWriteBuffer.step] at h
  split_ifs at h with ha hb hc hd he hf <;>
  first
    | exact Except.noConfusion h
    | (simp only [Except.ok.injEq, Prod.mk.injEq] at h
       obtain ⟨hs, hbool, hd2⟩ := h
       first
         | exact Bool.noConfusion hbool
         | (subst hs
            refine ⟨rfl, rfl, ?_, ?_, ?_⟩
            · first
                | rfl
                | exact he
            · simp [AsyncWriteBuffer.IsDone]
              try omega
            · first
                | exact Or.inr ⟨hd2.symm, by assumption⟩
                | (refine Or.inl ⟨hd2.symm, ?_⟩
                   first
                     | (simp only [Bool.not_eq_true] at hd; exact hd)
                     | (simp only [Bool.not_eq_true] at hf; exact hf))))

/-- A handler invocation of a not yet done block read record that returns
true fires no callback and leaves the record not done, with block, total
and callback presence unchanged. -/
lemma blk_step_keep {s s1 : AsyncReadByteBlock} {r : Int} {en : Nat} {mv : Bool}
    {d : Option Nat}
    (hdone : s.IsDone = false)
    (h : AsyncReadByteBlock.step s r en mv = .ok (s1, true, d)) :
    d = none ∧ s1.block_ = s.block_ ∧ s1.size_ = s.size_ ∧ s1.hasCb = s.hasCb ∧
    s1.IsDone = false := by
  obtain ⟨blk, pos, sz, cb⟩ := s
  simp only [AsyncReadByteBlock.step, AsyncReadByteBlock.docb] at h
  split_ifs at h with ha hb hc hd he hf hg hh hi hj <;>
  first
    | exact Except.noConfusion h
    | (simp only [Except.ok.injEq, Prod.mk.injEq] at h
       obtain ⟨hs, hbool, hd2⟩ := h
       first
         | exact Bool.noConfusion hbool
         | (subst hs
            refine ⟨hd2.symm, rfl, rfl, rfl, ?_⟩
            simp only [AsyncReadByteBlock.IsDone, Bool.or_eq_false_iff,
              beq_eq_false_iff_ne, ne_eq] at hdone ⊢
            exact ⟨hdone.1, by omega⟩))

/-- A handler invocation of a block read record that returns false fires the
callback exactly when one is present, forces the cursor to the total count
(so the record is done) and keeps the total unchanged. -/
lemma blk_step_dereg {s s1 : AsyncReadByteBlock} {r : Int} {en : Nat} {mv : Bool}
    {d : Option Nat}
    (h : AsyncReadByteBlock.step s r en mv = .ok (s1, false, d)) :
    s1.hasCb = s.hasCb ∧ s1.size_ = s.size_ ∧ s1.pos_ = s.size_ ∧
    s1.IsDone = true ∧
    ((d = none ∧ s.hasCb = false) ∨ (d = some 0 ∧ s.hasCb = true)) := by
  obtain ⟨blk, pos, sz, cb⟩ := s
  simp only [AsyncReadByteBlock.step, AsyncReadByteBlock.docb] at h
  split_ifs at h with ha hb hc hd he hf hg hh hi hj <;>
  first
    | exact Except.noConfusion h
    | (simp only [Bool.and_eq_true] at hd
       exact absurd hd.1 (by assumption))
    | (simp only [Bool.and_eq_true] at hh
       exact absurd hh.1 (by assumption))
    | (simp only [Except.ok.injEq, Prod.mk.injEq] at h
       obtain ⟨hs, hbool, hd2⟩ := h
       first
         | exact Bool.noConfusion hbool
         | (subst hs
            refine ⟨rfl, rfl, ?_, ?_, ?_⟩
            · first
                | rfl
                | exact hg
            · simp [AsyncReadByteBlock.IsDone]
              try omega
            · first
                | exact Or.inr ⟨hd2.symm, by assumption⟩
                | (refine Or.inl ⟨hd2.symm, ?_⟩
                   first
                     | (simp only [Bool.not_eq_true] at hf; exact hf)
                     | (simp only [Bool.not_eq_true] at hj; exact hj))))

/-- A handler invocation of a not yet done block write record that returns
true fires no callback and leaves the record not done, with block and
callback presence unchanged. -/
lemma awblk_step_keep {s s1 : AsyncWriteBlock} {r : Int} {en : Nat}
    {d : Option Nat}
    (hdone : s.IsDone = false)
    (h : AsyncWriteBlock.step s r en = .ok (s1, true, d)) :
    d = none ∧ s1.block_ = s.block_ ∧ s1.hasCb = s.hasCb ∧ s1.IsDone = false := by
  obtain ⟨⟨bsz⟩, sz, cb⟩ := s
  simp only [AsyncWriteBlock.step] at h
  split_ifs at h with ha hb hc hd he hf <;>
  first
    | exact Except.noConfusion h
    | (simp only [Except.ok.injEq, Prod.mk.injEq] at h
       obtain ⟨hs, hbool, hd2⟩ := h
       first
         | exact Bool.noConfusion hbool
         | (subst hs
            refine ⟨hd2.symm, rfl, rfl, ?_⟩
            simp only [AsyncWriteBlock.IsDone, beq_eq_false_iff_ne, ne_eq] at hdone ⊢
            omega))

/-- A handler invocation of a block write record that returns false fires
the callback exactly when one is present, forces the cursor to the block
size (so the record is done), and leaves the block itself in place. -/
lemma awblk_step_dereg {s s1 : AsyncWriteBlock} {r : Int} {en : Nat}
    {d : Option Nat}
    (h : AsyncWriteBlock.step s r en = .ok (s1, false, d)) :
    s1.hasCb = s.hasCb ∧ s1.block_ = s.block_ ∧ s1.size_ = s.block_.size ∧
    s1.IsDone = true ∧
    ((d = none ∧ s.hasCb = false) ∨ (d = some 0 ∧ s.hasCb = true)) := by
  obtain ⟨⟨bsz⟩, sz, cb⟩ := s
  simp only [AsyncWriteBlock.step] at h
  split_ifs at h with ha hb hc hd he hf <;>
  first
    | exact Except.noConfusion h
    | (simp only [Except.ok.injEq, Prod.mk.injEq] at h
       obtain ⟨hs, hbool, hd2⟩ := h
       first
         | exact Bool.noConfusion hbool
         | (subst hs
            refine ⟨rfl, rfl, ?_, ?_, ?_⟩
            · first
                | rfl
                | exact he
            · simp [AsyncWriteBlock.IsDone]
              try omega
            · first
                | exact Or.inr ⟨hd2.symm, by assumption⟩
                | (refine Or.inl ⟨hd2.symm, ?_⟩
                   first
                     | (simp only [Bool.not_eq_true] at hd; exact hd)
                     | (simp only [Bool.not_eq_true] at hf; exact hf))))

/-! Trace level lemmas: a record driven through any sequence of readiness
events by the multiplexer. -/

/-- Master invariant for a buffer read record over a whole event sequence:
while registered it is never done and has fired nothing; when it
deregisters it has fired exactly once if a callback is present (and never
more than once in any case); every delivered buffer is either empty or the
untouched receive buffer; and the payload can have been moved out only
with the record left in a state where IsDone is false. -/
lemma arb_run : ∀ (inputs : List (Int × Nat × Bool)) (s0 s1 : AsyncReadBuffer)
    (reg : Bool) (evs : List Nat),
    s0.IsDone = false →
    runHandler AsyncReadBuffer.stepEv s0 inputs = .ok (s1, reg, evs) →
    s1.hasCb = s0.hasCb ∧
    evs.length ≤ 1 ∧
    (reg = true → s1.IsDone = false ∧ evs = [] ∧ s1.buffer_ = s0.buffer_ ∧
      s1.movedOut = s0.movedOut) ∧
    (reg = false → evs.length = (if s0.hasCb = true then 1 else 0)) ∧
    (∀ v ∈ evs, v = 0 ∨ v = s0.buffer_.size) ∧
    (s0.movedOut = false → s1.movedOut = true → s1.IsDone = false) := by
  intro inputs
  induction inputs with
  | nil =>
    intro s0 s1 reg evs hdone h
    simp only [runHandler, Except.ok.injEq, Prod.mk.injEq] at h
    obtain ⟨hs, hreg, hevs⟩ := h
    subst hs
    subst hevs
    refine ⟨rfl, by simp, ?_, ?_, by simp, ?_⟩
    · intro hr
      exact ⟨hdone, rfl, rfl, rfl⟩
    · intro hr
      rw [hr] at hreg
      exact Bool.noConfusion hreg
    · intro hm hm1
      rw [hm] at hm1
      exact Bool.noConfusion hm1
  | cons ev rest ih =>
    intro s0 s1 reg evs hdone h
    obtain ⟨r, en, mv⟩ := ev
    simp only [runHandler] at h
    cases hst : AsyncReadBuffer.stepEv s0 (r, en, mv) with
    | error e =>
      rw [hst] at h
      exact Except.noConfusion h
    | ok out =>
      obtain ⟨sa, ka, da⟩ := out
      cases ka with
      | false =>
        rw [hst] at h
        simp only [AsyncReadBuffer.stepEv] at hst
        simp only [Except.ok.injEq, Prod.mk.injEq] at h
        obtain ⟨hs, hreg, hevs⟩ := h
        subst hs
        subst hevs
        subst hreg
        obtain ⟨hcb, hdel, hmv⟩ := arb_step_dereg hst
        refine ⟨hcb, ?_, ?_, ?_, ?_, hmv⟩
        · rcases hdel with ⟨hd, -⟩ | ⟨v, hd, -, -⟩ <;> simp [hd, optList]
        · intro hr
          exact Bool.noConfusion hr
        · intro hr
          rcases hdel with ⟨hd, hcb0⟩ | ⟨v, hd, hcb0, -⟩ <;>
            simp [hd, hcb0, optList]
        · intro v hv
          rcases hdel with ⟨hd, -⟩ | ⟨w, hd, -, hw⟩ <;> simp [hd, optList] at hv
          rw [hv]
          exact hw
      | true =>
        rw [hst] at h
        simp only [AsyncReadBuffer.stepEv] at hst
        obtain ⟨hda, hbuf, hcb, hmo, hdone1⟩ := arb_step_keep hdone hst
        subst hda
        simp only [optList, List.nil_append] at h
        cases hrec : runHandler AsyncReadBuffer.stepEv sa rest with
        | error e =>
          rw [hrec] at h
          exact Except.noConfusion h
        | ok out2 =>
          obtain ⟨s2, reg2, ds⟩ := out2
          rw [hrec] at h
          simp only [Except.ok.injEq, Prod.mk.injEq] at h
          obtain ⟨hs2, hreg2, hds⟩ := h
          subst hs2
          subst hds
          subst hreg2
          obtain ⟨ihcb, ihlen, ihreg, ihnreg, ihmem, ihmv⟩ := ih sa s2 reg2 ds hdone1 hrec
          refine ⟨ihcb.trans hcb, ihlen, ?_, ?_, ?_, ?_⟩
          · intro hr
            obtain ⟨i1, i2, i3, i4⟩ := ihreg hr
            exact ⟨i1, i2, i3.trans hbuf, i4.trans hmo⟩
          · intro hr
            rw [ihnreg hr, hcb]
          · intro v hv
            rcases ihmem v hv with h0 | hfull
            · exact Or.inl h0
            · rw [← hbuf]
              exact Or.inr hfull
          · intro hm hm1
            exact ihmv (hmo.trans hm) hm1

/-- Master invariant for a block read record over a whole event sequence:
while registered it is never done and has fired nothing; when it
deregisters its cursor has been forced to the total, it is done, and it has
fired exactly once if a callback is present (never more than once in any
case). -/
lemma blk_run : ∀ (inputs : List (Int × Nat × Bool)) (s0 s1 : AsyncReadByteBlock)
    (reg : Bool) (evs : List Nat),
    s0.IsDone = false →
    runHandler AsyncReadByteBlock.stepEv s0 inputs = .ok (s1, reg, evs) →
    s1.hasCb = s0.hasCb ∧
    s1.size_ = s0.size_ ∧
    evs.length ≤ 1 ∧
    (reg = true → s1.IsDone = false ∧ evs = [] ∧ s1.block_ = s0.block_) ∧
    (reg = false → s1.IsDone = true ∧ s1.pos_ = s0.size_ ∧
      evs.length = (if s0.hasCb = true then 1 else 0)) := by
  intro inputs
  induction inputs with
  | nil =>
    intro s0 s1 reg evs hdone h
    simp only [runHandler, Except.ok.injEq, Prod.mk.injEq] at h
    obtain ⟨hs, hreg, hevs⟩ := h
    subst hs
    subst hevs
    subst hreg
    refine ⟨rfl, rfl, by simp, ?_, ?_⟩
    · intro hr
      exact ⟨hdone, rfl, rfl⟩
    · intro hr
      exact Bool.noConfusion hr
  | cons ev rest ih =>
    intro s0 s1 reg evs hdone h
    obtain ⟨r, en, mv⟩ := ev
    simp only [runHandler] at h
    cases hst : AsyncReadByteBlock.stepEv s0 (r, en, mv) with
    | error e =>
      rw [hst] at h
      exact Except.noConfusion h
    | ok out =>
      obtain ⟨sa, ka, da⟩ := out
      cases ka with
      | false =>
        rw [hst] at h
        simp only [AsyncReadByteBlock.stepEv] at hst
        simp only [Except.ok.injEq, Prod.mk.injEq] at h
        obtain ⟨hs, hreg, hevs⟩ := h
        subst hs
        subst hevs
        subst hreg
        obtain ⟨hcb, hsz, hpos, hdone1, hdel⟩ := blk_step_dereg hst
        refine ⟨hcb, hsz, ?_, ?_, ?_⟩
        · rcases hdel with ⟨hd, -⟩ | ⟨hd, -⟩ <;> simp [hd, optList]
        · intro hr
          exact Bool.noConfusion hr
        · intro hr
          refine ⟨hdone1, hpos, ?_⟩
          rcases hdel with ⟨hd, hcb0⟩ | ⟨hd, hcb0⟩ <;> simp [hd, hcb0, optList]
      | true =>
        rw [hst] at h
        simp only [AsyncReadByteBlock.stepEv] at hst
        obtain ⟨hda, hblk, hsz, hcb, hdone1⟩ := blk_step_keep hdone hst
        subst hda
        simp only [optList, List.nil_append] at h
        cases hrec : runHandler AsyncReadByteBlock.stepEv sa rest with
        | error e =>
          rw [hrec] at h
          exact Except.noConfusion h
        | ok out2 =>
          obtain ⟨s2, reg2, ds⟩ := out2
          rw [hrec] at h
          simp only [Except.ok.injEq, Prod.mk.injEq] at h
          obtain ⟨hs2, hreg2, hds⟩ := h
          subst hs2
          subst hds
          subst hreg2
          obtain ⟨ihcb, ihsz, ihlen, ihreg, ihnreg⟩ := ih sa s2 reg2 ds hdone1 hrec
          refine ⟨ihcb.trans hcb, ihsz.trans hsz, ihlen, ?_, ?_⟩
          · intro hr
            obtain ⟨i1, i2, i3⟩ := ihreg hr
            exact ⟨i1, i2, i3.trans hblk⟩
          · intro hr
            obtain ⟨i1, i2, i3⟩ := ihnreg hr
            exact ⟨i1, i2.trans hsz, by rw [i3, hcb]⟩

/-- Master invariant for a buffer write record over a whole event sequence:
while registered it is never done and has fired nothing; when it
deregisters its cursor equals the buffer size, it is done, and it has fired
exactly once if a callback is present (never more than once in any case);
the buffer itself is never moved out. -/
lemma awb_run : ∀ (inputs : List (Int × Nat × Bool)) (s0 s1 : AsyncWriteBuffer)
    (reg : Bool) (evs : List Nat),
    s0.IsDone = false →
    runHandler AsyncWriteBuffer.stepEv s0 inputs = .ok (s1, reg, evs) →
    s1.hasCb = s0.hasCb ∧
    s1.buffer_ = s0.buffer_ ∧
    evs.length ≤ 1 ∧
    (reg = true → s1.IsDone = false ∧ evs = []) ∧
    (reg = false → s1.IsDone = true ∧ s1.size_ = s0.buffer_.size ∧
      evs.length = (if s0.hasCb = true then 1 else 0)) := by
  intro inputs
  induction inputs with
  | nil =>
    intro s0 s1 reg evs hdone h
    simp only [runHandler, Except.ok.injEq, Prod.mk.injEq] at h
    obtain ⟨hs, hreg, hevs⟩ := h
    subst hs
    subst hevs
    subst hreg
    refine ⟨rfl, rfl, by simp, ?_, ?_⟩
    · intro hr
      exact ⟨hdone, rfl⟩
    · intro hr
      exact Bool.noConfusion hr
  | cons ev rest ih =>
    intro s0 s1 reg evs hdone h
    obtain ⟨r, en, mv⟩ := ev
    simp only [runHandler] at h
    cases hst : AsyncWriteBuffer.stepEv s0 (r, en, mv) with
    | error e =>
      rw [hst] at h
      exact Except.noConfusion h
    | ok out =>
      obtain ⟨sa, ka, da⟩ := out
      cases ka with
      | false =>
        rw [hst] at h
        simp only [AsyncWriteBuffer.stepEv] at hst
        simp only [Except.ok.injEq, Prod.mk.injEq] at h
        obtain ⟨hs, hreg, hevs⟩ := h
        subst hs
        subst hevs
        subst hreg
        obtain ⟨hcb, hbuf, hsz, hdone1, hdel⟩ := awb_step_dereg hst
        refine ⟨hcb, hbuf, ?_, ?_, ?_⟩
        · rcases hdel with ⟨hd, -⟩ | ⟨hd, -⟩ <;> simp [hd, optList]
        · intro hr
          exact Bool.noConfusion hr
        · intro hr
          refine ⟨hdone1, hsz, ?_⟩
          rcases hdel with ⟨hd, hcb0⟩ | ⟨hd, hcb0⟩ <;> simp [hd, hcb0, optList]
      | true =>
        rw [hst] at h
        simp only [AsyncWriteBuffer.stepEv] at hst
        obtain ⟨hda, hbuf, hcb, hdone1⟩ := awb_step_keep hdone hst
        subst hda
        simp only [optList, List.nil_append] at h
        cases hrec : runHandler AsyncWriteBuffer.stepEv sa rest with
        | error e =>
          rw [hrec] at h
          exact Except.noConfusion h
        | ok out2 =>
          obtain ⟨s2, reg2, ds⟩ := out2
          rw [hrec] at h
          simp only [Except.ok.injEq, Prod.mk.injEq] at h
          obtain ⟨hs2, hreg2, hds⟩ := h
          subst hs2
          subst hds
          subst hreg2
          obtain ⟨ihcb, ihbuf, ihlen, ihreg, ihnreg⟩ := ih sa s2 reg2 ds hdone1 hrec
          refine ⟨ihcb.trans hcb, ihbuf.trans hbuf, ihlen, ihreg, ?_⟩
          · intro hr
            obtain ⟨i1, i2, i3⟩ := ihnreg hr
            exact ⟨i1, by rw [i2, hbuf], by rw [i3, hcb]⟩

/-- Master invariant for a block write record over a whole event sequence,
in the same form as for buffer writes. -/
lemma awblk_run : ∀ (inputs : List (Int × Nat × Bool)) (s0 s1 : AsyncWriteBlock)
    (reg : Bool) (evs : List Nat),
    s0.IsDone = false →
    runHandler AsyncWriteBlock.stepEv s0 inputs = .ok (s1, reg, evs) →
    s1.hasCb = s0.hasCb ∧
    s1.block_ = s0.block_ ∧
    evs.length ≤ 1 ∧
    (reg = true → s1.IsDone = false ∧ evs = []) ∧
    (reg = false → s1.IsDone = true ∧ s1.size_ = s0.block_.size ∧
      evs.length = (if s0.hasCb = true then 1 else 0)) := by
  intro inputs
  induction inputs with
  | nil =>
    intro s0 s1 reg evs hdone h
    simp only [runHandler, Except.ok.injEq, Prod.mk.injEq] at h
    obtain ⟨hs, hreg, hevs⟩ := h
    subst hs
    subst hevs
    subst hreg
    refine ⟨rfl, rfl, by simp, ?_, ?_⟩
    · intro hr
      exact ⟨hdone, rfl⟩
    · intro hr
      exact Bool.noConfusion hr
  | cons ev rest ih =>
    intro s0 s1 reg evs hdone h
    obtain ⟨r, en, mv⟩ := ev
    simp only [runHandler] at h
    cases hst : AsyncWriteBlock.stepEv s0 (r, en, mv) with
    | error e =>
      rw [hst] at h
      exact Except.noConfusion h
    | ok out =>
      obtain ⟨sa, ka, da⟩ := out
      cases ka with
      | false =>
        rw [hst] at h
        simp only [AsyncWriteBlock.stepEv] at hst
        simp only [Except.ok.injEq, Prod.mk.injEq] at h
        obtain ⟨hs, hreg, hevs⟩ := h
        subst hs
        subst hevs
        subst hreg
        obtain ⟨hcb, hblk, hsz, hdone1, hdel⟩ := awblk_step_dereg hst
        refine ⟨hcb, hblk, ?_, ?_, ?_⟩
        · rcases hdel with ⟨hd, -⟩ | ⟨hd, -⟩ <;> simp [hd, optList]
        · intro hr
          exact Bool.noConfusion hr
        · intro hr
          refine ⟨hdone1, hsz, ?_⟩
          rcases hdel with ⟨hd, hcb0⟩ | ⟨hd, hcb0⟩ <;> simp [hd, hcb0, optList]
      | true =>
        rw [hst] at h
        simp only [AsyncWriteBlock.stepEv] at hst
        obtain ⟨hda, hblk, hcb, hdone1⟩ := awblk_step_keep hdone hst
        subst hda
        simp only [optList, List.nil_append] at h
        cases hrec : runHandler AsyncWriteBlock.stepEv sa rest with
        | error e =>
          rw [hrec] at h
          exact Except.noConfusion h
        | ok out2 =>
          obtain ⟨s2, reg2, ds⟩ := out2
          rw [hrec] at h
          simp only [Except.ok.injEq, Prod.mk.injEq] at h
          obtain ⟨hs2, hreg2, hds⟩ := h
          subst hs2
          subst hds
          subst hreg2
          obtain ⟨ihcb, ihblk, ihlen, ihreg, ihnreg⟩ := ih sa s2 reg2 ds hdone1 hrec
          refine ⟨ihcb.trans hcb, ihblk.trans hblk, ihlen, ihreg, ?_⟩
          · intro hr
            obtain ⟨i1, i2, i3⟩ := ihnreg hr
            exact ⟨i1, by rw [i2, hblk], by rw [i3, hcb]⟩

/-- Any record that is in a queue but no longer in the reaped queue was
dropped by dropWhile, hence satisfied the predicate. -/
lemma mem_dropped_satisfies {α : Type} (p : α → Bool) :
    ∀ (q : List α) (x : α), x ∈ q → x ∉ q.dropWhile p → p x = true := by
  intro q
  induction q with
  | nil =>
    intro x hx
    exact absurd hx (List.not_mem_nil x)
  | cons a t ih =>
    intro x hx hnx
    rw [List.dropWhile_cons] at hnx
    by_cases hpa : p a = true
    · rw [if_pos hpa] at hnx
      rcases List.mem_cons.mp hx with rfl | hxt
      · exact hpa
      · exact ih x hxt hnx
    · rw [if_neg hpa] at hnx
      exact absurd hx hnx

/-- C9: on a transient recv or send result (non-positive count with errno
EINTR or EAGAIN) every one of the four readiness handlers returns true (keep
registered) with the record state completely unchanged and no callback
invocation, so the cursor does not advance, the payload is untouched, and
IsDone is unaltered. -/
theorem c9_transient_keeps_record_unchanged :
    ∀ (r : Int) (en : Nat) (mv : Bool), r ≤ 0 → (en = EINTR ∨ en = EAGAIN) →
    (∀ s : AsyncReadBuffer, AsyncReadBuffer.step s r en mv = .ok (s, true, none)) ∧
    (∀ s : AsyncReadByteBlock, AsyncReadByteBlock.step s r en mv = .ok (s, true, none)) ∧
    (∀ s : AsyncWriteBuffer, AsyncWriteBuffer.step s r en = .ok (s, true, none)) ∧
    (∀ s : AsyncWriteBlock, AsyncWriteBlock.step s r en = .ok (s, true, none)) := by
  intro r en mv h1 h2
  refine ⟨fun s => ?_, fun s => ?_, fun s => ?_, fun s => ?_⟩
  · rw [AsyncReadBuffer.step, if_pos h1, if_pos h2]
  · rw [AsyncReadByteBlock.step, if_pos h1, if_pos h2]
  · rw [AsyncWriteBuffer.step, if_pos h1, if_pos h2]
  · rw [AsyncWriteBlock.step, if_pos h1, if_pos h2]

/-- Witness for c9_transient_keeps_record_unchanged at r = 0, errno EINTR,
on a concrete half finished buffer read record. -/
theorem c9_witness :
    AsyncReadBuffer.step ⟨⟨5⟩, 2, true, false⟩ 0 EINTR false =
      .ok (⟨⟨5⟩, 2, true, false⟩, true, none) :=
  (c9_transient_keeps_record_unchanged 0 EINTR false (by decide) (Or.inl rfl)).1
    ⟨⟨5⟩, 2, true, false⟩

/-- C2 (amended): on a result classified as peer closure the READ handlers
(buffer read and block read) absorb all three conditions (count 0 with
errno 0, EPIPE, ECONNRESET): they force the cursor to the total, making
IsDone true, invoke the completion callback when present, and return
deregister without raising.  The WRITE handlers absorb only EPIPE in that
way; for errno 0 (clean closure reported by a zero send count) or
ECONNRESET they raise a dispatcher exception instead. -/
theorem c2_peer_closure_amended :
    ∀ (r : Int) (en : Nat) (mv : Bool), r ≤ 0 →
    ((en = 0 ∨ en = EPIPE ∨ en = ECONNRESET) →
      (∀ s : AsyncReadBuffer,
        AsyncReadBuffer.step s r en mv =
          .ok ({ s with size_ := s.buffer_.size }, false,
            if s.hasCb then some 0 else none) ∧
        ({ s with size_ := s.buffer_.size } : AsyncReadBuffer).IsDone = true) ∧
      (∀ s : AsyncReadByteBlock,
        AsyncReadByteBlock.step s r en mv =
          .ok (({ s with pos_ := s.size_ } : AsyncReadByteBlock).docb mv, false,
            if s.hasCb then some 0 else none) ∧
        (({ s with pos_ := s.size_ } : AsyncReadByteBlock).docb mv).IsDone = true)) ∧
    (en = EPIPE →
      (∀ s : AsyncWriteBuffer,
        AsyncWriteBuffer.step s r en =
          .ok ({ s with size_ := s.buffer_.size }, false,
            if s.hasCb then some 0 else none) ∧
        ({ s with size_ := s.buffer_.size } : AsyncWriteBuffer).IsDone = true) ∧
      (∀ s : AsyncWriteBlock,
        AsyncWriteBlock.step s r en =
          .ok ({ s with size_ := s.block_.size }, false,
            if s.hasCb then some 0 else none) ∧
        ({ s with size_ := s.block_.size } : AsyncWriteBlock).IsDone = true)) ∧
    ((en = 0 ∨ en = ECONNRESET) →
      (∀ s : AsyncWriteBuffer, AsyncWriteBuffer.step s r en = .error en) ∧
      (∀ s : AsyncWriteBlock, AsyncWriteBlock.step s r en = .error en)) := by
  intro r en mv hr
  refine ⟨?_, ?_, ?_⟩
  · intro hc
    constructor
    · intro s
      rcases hc with rfl | rfl | rfl <;>
        exact ⟨by simp [AsyncReadBuffer.step, hr, EINTR, EAGAIN, EPIPE, ECONNRESET],
          by simp [AsyncReadBuffer.IsDone]⟩
    · intro s
      rcases hc with rfl | rfl | rfl <;>
        refine ⟨by simp [AsyncReadByteBlock.step, hr, EINTR, EAGAIN, EPIPE, ECONNRESET], ?_⟩ <;>
        · unfold AsyncReadByteBlock.docb
          split <;> simp [AsyncReadByteBlock.IsDone]
  · rintro rfl
    constructor
    · intro s
      exact ⟨by simp [AsyncWriteBuffer.step, hr, EINTR, EAGAIN, EPIPE],
        by simp [AsyncWriteBuffer.IsDone]⟩
    · intro s
      exact ⟨by simp [AsyncWriteBlock.step, hr, EINTR, EAGAIN, EPIPE],
        by simp [AsyncWriteBlock.IsDone]⟩
  · intro hc
    constructor
    · intro s
      rcases hc with rfl | rfl <;>
        simp [AsyncWriteBuffer.step, hr, EINTR, EAGAIN, EPIPE, ECONNRESET]
    · intro s
      rcases hc with rfl | rfl <;>
        simp [AsyncWriteBlock.step, hr, EINTR, EAGAIN, EPIPE, ECONNRESET]

/-- Witness for c2_peer_closure_amended: errno ECONNRESET with count 0 on a
concrete half finished buffer read record forces the cursor to the total,
delivers an empty buffer and deregisters. -/
theorem c2_witness :
    AsyncReadBuffer.step ⟨⟨5⟩, 2, true, false⟩ 0 ECONNRESET false =
      .ok (⟨⟨5⟩, 5, true, false⟩, false, some 0) ∧
    (⟨⟨5⟩, 5, true, false⟩ : AsyncReadBuffer).IsDone = true := by
  have h := ((c2_peer_closure_amended 0 ECONNRESET false (by decide)).1
    (Or.inr (Or.inr rfl))).1 ⟨⟨5⟩, 2, true, false⟩
  exact h

/-- Counterexample for C2 as stated: the claim asserts that a connection
reset (ECONNRESET) is absorbed on the write paths as well, never raising a
dispatcher exception; but the buffer write handler, on the record freshly
enqueued by AsyncWrite of a 5 byte buffer, raises the dispatcher exception
for a send result of 0 with errno ECONNRESET. -/
theorem c2_counterexample :
    (Dispatcher.asyncWrite [] 5 true).1 = [⟨⟨5⟩, 0, true⟩] ∧
    AsyncWriteBuffer.step ⟨⟨5⟩, 0, true⟩ 0 ECONNRESET = .error ECONNRESET := by
  constructor
  · rfl
  · rfl

/-- C7: a buffer read enqueued with n > 0 only ever delivers a buffer of
size exactly n (success) or size 0 (peer closure): over any event sequence
every delivered size is 0 or n.  Moreover on the closure path the handler
delivers the empty buffer even when the cursor is strictly positive, so
partially read bytes are discarded rather than delivered. -/
theorem c7_buffer_read_all_or_nothing :
    (∀ (n : Nat) (cb : Bool) (rec : AsyncReadBuffer), 0 < n →
      Dispatcher.asyncRead [] n cb = ([rec], false, true) →
      ∀ (inputs : List (Int × Nat × Bool)) (s1 : AsyncReadBuffer) (reg : Bool)
        (evs : List Nat),
        runHandler AsyncReadBuffer.stepEv rec inputs = .ok (s1, reg, evs) →
        ∀ v ∈ evs, v = 0 ∨ v = n) ∧
    (∀ (s : AsyncReadBuffer) (r : Int) (en : Nat) (mv : Bool),
      r ≤ 0 → (en = 0 ∨ en = EPIPE ∨ en = ECONNRESET) → 0 < s.size_ →
      AsyncReadBuffer.step s r en mv =
        .ok ({ s with size_ := s.buffer_.size }, false,
          if s.hasCb then some 0 else none)) := by
  constructor
  · intro n cb rec hn h inputs s1 reg evs hrun v hv
    have hn0 : ¬n = 0 := by omega
    rw [Dispatcher.asyncRead, if_neg hn0] at h
    simp only [List.nil_append, Prod.mk.injEq, List.cons.injEq, and_true] at h
    subst h
    have hdone : (⟨⟨n⟩, 0, cb, false⟩ : AsyncReadBuffer).IsDone = false := by
      simp [AsyncReadBuffer.IsDone]
      omega
    obtain ⟨-, -, -, -, hmem, -⟩ := arb_run inputs _ s1 reg evs hdone hrun
    exact hmem v hv
  · intro s r en mv hr hc hpos
    rcases hc with rfl | rfl | rfl <;>
      simp [AsyncReadBuffer.step, hr, EINTR, EAGAIN, EPIPE, ECONNRESET]

/-- Witness for c7_buffer_read_all_or_nothing: a 2 byte read that receives
1 byte and then sees a connection reset delivers a single empty buffer
(size 0, one of the two allowed sizes), discarding the partial byte. -/
theorem c7_witness :
    runHandler AsyncReadBuffer.stepEv ⟨⟨2⟩, 0, true, false⟩
      [(1, 0, false), (0, ECONNRESET, false)] =
      .ok (⟨⟨2⟩, 2, true, false⟩, false, [0]) ∧
    ((0 : Nat) = 0 ∨ (0 : Nat) = 2) := by
  constructor
  · rfl
  · exact c7_buffer_read_all_or_nothing.1 2 true ⟨⟨2⟩, 0, true, false⟩ (by decide)
      (by decide) [(1, 0, false), (0, ECONNRESET, false)]
      ⟨⟨2⟩, 2, true, false⟩ false [0] (by rfl) 0 (by decide)

/-- C1 (amended): for every async operation whose enqueued record has a
positive amount of work (n > 0 for both read overloads, payload size > 0
for both write overloads — which the enqueue paths guarantee for writes),
along any sequence of readiness events without a fatal transport error
the completion callback fires at most once, fires exactly once when the
handler deregisters (if a callback is present), and never fires while the
record is still registered, in which case the record is also not yet done;
and the reaper drops a record from the front of a queue only when IsDone
holds for it.  The original claim fails only for the block read edge case
AsyncRead(c, 0, block, cb) with a non-empty block, excluded here. -/
theorem c1_exactly_once_amended :
    (∀ (n : Nat) (cb : Bool) (rec : AsyncReadBuffer), 0 < n →
      Dispatcher.asyncRead [] n cb = ([rec], false, true) →
      ∀ (inputs : List (Int × Nat × Bool)) (s1 : AsyncReadBuffer) (reg : Bool)
        (evs : List Nat),
        runHandler AsyncReadBuffer.stepEv rec inputs = .ok (s1, reg, evs) →
        evs.length ≤ 1 ∧
        (reg = true → evs = [] ∧ s1.IsDone = false) ∧
        (reg = false → evs.length = (if cb = true then 1 else 0))) ∧
    (∀ (n bsz : Nat) (cb : Bool) (rec : AsyncReadByteBlock), 0 < n → 0 < bsz →
      Dispatcher.asyncReadBlock [] n bsz cb = ([rec], false, true) →
      ∀ (inputs : List (Int × Nat × Bool)) (s1 : AsyncReadByteBlock) (reg : Bool)
        (evs : List Nat),
        runHandler AsyncReadByteBlock.stepEv rec inputs = .ok (s1, reg, evs) →
        evs.length ≤ 1 ∧
        (reg = true → evs = [] ∧ s1.IsDone = false) ∧
        (reg = false → evs.length = (if cb = true then 1 else 0))) ∧
    (∀ (bsz : Nat) (cb : Bool) (rec : AsyncWriteBuffer), 0 < bsz →
      Dispatcher.asyncWrite [] bsz cb = ([rec], false, true) →
      ∀ (inputs : List (Int × Nat × Bool)) (s1 : AsyncWriteBuffer) (reg : Bool)
        (evs : List Nat),
        runHandler AsyncWriteBuffer.stepEv rec inputs = .ok (s1, reg, evs) →
        evs.length ≤ 1 ∧
        (reg = true → evs = [] ∧ s1.IsDone = false) ∧
        (reg = false → evs.length = (if cb = true then 1 else 0))) ∧
    (∀ (bsz : Nat) (cb : Bool) (rec : AsyncWriteBlock), 0 < bsz →
      Dispatcher.asyncWriteBlock [] bsz cb = ([rec], false, true) →
      ∀ (inputs : List (Int × Nat × Bool)) (s1 : AsyncWriteBlock) (reg : Bool)
        (evs : List Nat),
        runHandler AsyncWriteBlock.stepEv rec inputs = .ok (s1, reg, evs) →
        evs.length ≤ 1 ∧
        (reg = true → evs = [] ∧ s1.IsDone = false) ∧
        (reg = false → evs.length = (if cb = true then 1 else 0))) ∧
    (∀ (q : List AsyncReadBuffer) (x : AsyncReadBuffer),
      x ∈ q → x ∉ Dispatcher.reapReads q → x.IsDone = true) ∧
    (∀ (q : List AsyncReadByteBlock) (x : AsyncReadByteBlock),
      x ∈ q → x ∉ Dispatcher.reapReadBlocks q → x.IsDone = true) ∧
    (∀ (q : List AsyncWriteBuffer) (x : AsyncWriteBuffer),
      x ∈ q → x ∉ Dispatcher.reapWrites q → x.IsDone = true) ∧
    (∀ (q : List AsyncWriteBlock) (x : AsyncWriteBlock),
      x ∈ q → x ∉ Dispatcher.reapWriteBlocks q → x.IsDone = true) := by
  refine ⟨?_, ?_, ?_, ?_, ?_, ?_, ?_, ?_⟩
  · intro n cb rec hn h inputs s1 reg evs hrun
    have hn0 : ¬n = 0 := by omega
    rw [Dispatcher.asyncRead, if_neg hn0] at h
    simp only [List.nil_append, Prod.mk.injEq, List.cons.injEq, and_true] at h
    subst h
    have hdone : (⟨⟨n⟩, 0, cb, false⟩ : AsyncReadBuffer).IsDone = false := by
      simp [AsyncReadBuffer.IsDone]
      omega
    obtain ⟨hcb, hlen, hreg, hnreg, -, -⟩ := arb_run inputs _ s1 reg evs hdone hrun
    exact ⟨hlen, fun hr => ⟨(hreg hr).2.1, (hreg hr).1⟩, hnreg⟩
  · intro n bsz cb rec hn hbsz h inputs s1 reg evs hrun
    have hb0 : ¬bsz = 0 := by omega
    rw [Dispatcher.asyncReadBlock, if_neg hb0] at h
    simp only [List.nil_append, Prod.mk.injEq, List.cons.injEq, and_true] at h
    subst h
    have hdone : (⟨some bsz, 0, n, cb⟩ : AsyncReadByteBlock).IsDone = false := by
      simp [AsyncReadByteBlock.IsDone]
      omega
    obtain ⟨hcb, hsz, hlen, hreg, hnreg⟩ := blk_run inputs _ s1 reg evs hdone hrun
    exact ⟨hlen, fun hr => ⟨(hreg hr).2.1, (hreg hr).1⟩, fun hr => (hnreg hr).2.2⟩
  · intro bsz cb rec hbsz h inputs s1 reg evs hrun
    have hb0 : ¬bsz = 0 := by omega
    rw [Dispatcher.asyncWrite, if_neg hb0] at h
    simp only [List.nil_append, Prod.mk.injEq, List.cons.injEq, and_true] at h
    subst h
    have hdone : (⟨⟨bsz⟩, 0, cb⟩ : AsyncWriteBuffer).IsDone = false := by
      simp [AsyncWriteBuffer.IsDone]
      omega
    obtain ⟨hcb, hbuf, hlen, hreg, hnreg⟩ := awb_run inputs _ s1 reg evs hdone hrun
    exact ⟨hlen, fun hr => ⟨(hreg hr).2, (hreg hr).1⟩, fun hr => (hnreg hr).2.2⟩
  · intro bsz cb rec hbsz h inputs s1 reg evs hrun
    have hb0 : ¬bsz = 0 := by omega
    rw [Dispatcher.asyncWriteBlock, if_neg hb0] at h
    simp only [List.nil_append, Prod.mk.injEq, List.cons.injEq, and_true] at h
    subst h
    have hdone : (⟨⟨bsz⟩, 0, cb⟩ : AsyncWriteBlock).IsDone = false := by
      simp [AsyncWriteBlock.IsDone]
      omega
    obtain ⟨hcb, hblk, hlen, hreg, hnreg⟩ := awblk_run inputs _ s1 reg evs hdone hrun
    exact ⟨hlen, fun hr => ⟨(hreg hr).2, (hreg hr).1⟩, fun hr => (hnreg hr).2.2⟩
  · exact fun q x => mem_dropped_satisfies AsyncReadBuffer.IsDone q x
  · exact fun q x => mem_dropped_satisfies AsyncReadByteBlock.IsDone q x
  · exact fun q x => mem_dropped_satisfies AsyncWriteBuffer.IsDone q x
  · exact fun q x => mem_dropped_satisfies AsyncWriteBlock.IsDone q x

/-- Witness for c1_exactly_once_amended: a 1 byte buffer read with a
callback that completes in one readiness event fires exactly one callback
delivery. -/
theorem c1_witness :
    runHandler AsyncReadBuffer.stepEv ⟨⟨1⟩, 0, true, false⟩ [(1, 0, false)] =
      .ok (⟨⟨1⟩, 1, true, false⟩, false, [1]) ∧
    ([1].length ≤ 1 ∧
      (false = true → [1] = ([] : List Nat) ∧
        (⟨⟨1⟩, 1, true, false⟩ : AsyncReadBuffer).IsDone = false) ∧
      (false = false → [1].length = (if true = true then 1 else 0))) := by
  refine ⟨by rfl, ?_⟩
  exact c1_exactly_once_amended.1 1 true ⟨⟨1⟩, 0, true, false⟩ (by decide)
    (by rfl) [(1, 0, false)] ⟨⟨1⟩, 1, true, false⟩ false [1] (by rfl)

/-- Counterexample for C1 as stated: the edge input AsyncRead(c, 0, block,
done_cb) with a non-empty block (the claim explicitly includes it) enqueues
a record without invoking the callback synchronously (the zero test in the
source is on block->size(), which is 1 here, not on n); the record is
already IsDone at enqueue (pos_ = size_ = 0), so the reaper removes it from
the front of its queue without its completion callback ever having fired:
the callback does not fire exactly once. -/
theorem c1_counterexample :
    Dispatcher.asyncReadBlock [] 0 1 true = ([⟨some 1, 0, 0, true⟩], false, true) ∧
    (⟨some 1, 0, 0, true⟩ : AsyncReadByteBlock).IsDone = true ∧
    Dispatcher.reapReadBlocks [⟨some 1, 0, 0, true⟩] = [] := by
  refine ⟨by rfl, by rfl, by rfl⟩

/-- C4 (amended): IsDone is, for block reads, exactly (block null OR cursor
equals total); for buffer writes and block writes exactly (cursor equals
payload size, the payload never being moved out); but for buffer reads
IsDone compares the cursor with the CURRENT buffer size, so after the
completion callback has moved the buffer out of a successfully finished
read of n > 0 bytes, IsDone is false even though the cursor equals the
total and the payload has been moved out. -/
theorem c4_isdone_amended :
    (∀ s : AsyncReadByteBlock,
      s.IsDone = true ↔ (s.block_ = none ∨ s.pos_ = s.size_)) ∧
    (∀ s : AsyncWriteBuffer, s.IsDone = true ↔ s.size_ = s.buffer_.size) ∧
    (∀ s : AsyncWriteBlock, s.IsDone = true ↔ s.size_ = s.block_.size) ∧
    (∀ s : AsyncReadBuffer, s.IsDone = true ↔ s.size_ = s.buffer_.size) ∧
    (∀ (n : Nat) (cb : Bool) (rec : AsyncReadBuffer), 0 < n →
      Dispatcher.asyncRead [] n cb = ([rec], false, true) →
      ∀ (inputs : List (Int × Nat × Bool)) (s1 : AsyncReadBuffer) (reg : Bool)
        (evs : List Nat),
        runHandler AsyncReadBuffer.stepEv rec inputs = .ok (s1, reg, evs) →
        s1.movedOut = true → s1.IsDone = false) := by
  refine ⟨?_, ?_, ?_, ?_, ?_⟩
  · intro s
    simp [AsyncReadByteBlock.IsDone, Option.isNone_iff_eq_none]
  · intro s
    simp [AsyncWriteBuffer.IsDone]
  · intro s
    simp [AsyncWriteBlock.IsDone]
  · intro s
    simp [AsyncReadBuffer.IsDone]
  · intro n cb rec hn h inputs s1 reg evs hrun hmoved
    have hn0 : ¬n = 0 := by omega
    rw [Dispatcher.asyncRead, if_neg hn0] at h
    simp only [List.nil_append, Prod.mk.injEq, List.cons.injEq, and_true] at h
    subst h
    have hdone : (⟨⟨n⟩, 0, cb, false⟩ : AsyncReadBuffer).IsDone = false := by
      simp [AsyncReadBuffer.IsDone]
      omega
    obtain ⟨-, -, -, -, -, hmv⟩ := arb_run inputs _ s1 reg evs hdone hrun
    exact hmv rfl hmoved

/-- Witness for c4_isdone_amended: after a successful 1 byte read whose
callback moves the buffer out, the record has movedOut and IsDone false. -/
theorem c4_witness :
    (⟨⟨0⟩, 1, true, true⟩ : AsyncReadBuffer).IsDone = false :=
  c4_isdone_amended.2.2.2.2 1 true ⟨⟨1⟩, 0, true, false⟩ (by decide) (by rfl)
    [(1, 0, true)] ⟨⟨0⟩, 1, true, true⟩ false [1] (by rfl) (by rfl)

/-- Counterexample for C4 as stated: the claim asserts IsDone is true as
soon as the cursor equals the total OR the payload has been moved out; but
for the buffer read record enqueued by AsyncRead with n = 1, after the
success event in which the callback moves the buffer out, the cursor (1)
equals the total (1) and the payload has been moved out, yet IsDone is
false, because AsyncReadBuffer::IsDone compares against the now empty
buffer_.size(). -/
theorem c4_counterexample :
    (Dispatcher.asyncRead [] 1 true).1 = [⟨⟨1⟩, 0, true, false⟩] ∧
    AsyncReadBuffer.step ⟨⟨1⟩, 0, true, false⟩ 1 0 true =
      .ok (⟨⟨0⟩, 1, true, true⟩, false, some 1) ∧
    ¬((⟨⟨0⟩, 1, true, true⟩ : AsyncReadBuffer).IsDone = true ↔
      ((⟨⟨0⟩, 1, true, true⟩ : AsyncReadBuffer).size_ = 1 ∨
        (⟨⟨0⟩, 1, true, true⟩ : AsyncReadBuffer).movedOut = true)) := by
  refine ⟨by rfl, by rfl, ?_⟩
  decide

/-- C6 (amended): AsyncWrite with a zero size buffer invokes the callback
synchronously exactly when one is provided and returns without enqueuing a
record or registering write readiness in every zero size case (with or
without a callback); with a positive size it enqueues the moved buffer as a
new record at the back of the write queue and registers write readiness,
without any synchronous callback. -/
theorem c6_async_write_amended :
    ∀ (q : List AsyncWriteBuffer) (n : Nat) (cb : Bool),
    (n = 0 → Dispatcher.asyncWrite q n cb = (q, cb, false)) ∧
    (0 < n → Dispatcher.asyncWrite q n cb = (q ++ [⟨⟨n⟩, 0, cb⟩], false, true)) := by
  intro q n cb
  constructor
  · intro h
    rw [Dispatcher.asyncWrite, if_pos h]
  · intro h
    rw [Dispatcher.asyncWrite, if_neg (by omega)]

/-- Witness for c6_async_write_amended at both a zero size write with a
callback (synchronous invocation, nothing enqueued) and a 3 byte write
(record enqueued, readiness registered, no synchronous invocation). -/
theorem c6_witness :
    Dispatcher.asyncWrite [] 0 true = ([], true, false) ∧
    Dispatcher.asyncWrite [] 3 true = ([⟨⟨3⟩, 0, true⟩], false, true) :=
  ⟨(c6_async_write_amended [] 0 true).1 rfl,
    (c6_async_write_amended [] 3 true).2 (by decide)⟩

/-- Counterexample for C6 as stated: the claim asserts that a zero size
buffer with no callback is enqueued into the write queue and registered
with the backend; but AsyncWrite returns immediately in every zero size
case: nothing is enqueued (the queue stays empty) and no write readiness
is registered (third component false). -/
theorem c6_counterexample :
    Dispatcher.asyncWrite [] 0 false = ([], false, false) ∧
    ¬((Dispatcher.asyncWrite [] 0 false).1 = [⟨⟨0⟩, 0, false⟩] ∧
      (Dispatcher.asyncWrite [] 0 false).2.2 = true) := by
  refine ⟨by rfl, ?_⟩
  decide

/-! Embedding of thrill/io/block_alloc_strategy.hpp.  The functors compute
on size_t; arithmetic that can wrap is taken modulo 2^64.  The random
engine draw rng() and the std::random_shuffle permutation are external
inputs: they appear as an explicit argument and as a quantified
permutation. -/

/-- Size of the size_t value space on the 64 bit targets thrill supports. -/
def U64 : Nat := 2 ^ 64

/-- io::Striping: fields begin_ and diff_. -/
structure Striping where
  begin_ : Nat
  diff_ : Nat
deriving DecidableEq

/-- The Striping(b, e) constructor: begin_ = b, diff_ = e - b.  For size_t
values b <= e the C++ subtraction agrees with Nat subtraction. -/
def Striping.ofRange (b e : Nat) : Striping := ⟨b, e - b⟩

/-- Striping::operator(): begin_ + i % diff_, computed in size_t. -/
def Striping.app (s : Striping) (i : Nat) : Nat :=
  (s.begin_ + i % s.diff_) % U64

/-- FullyRandom::operator(): begin_ + rng() % diff_ over the Striping base;
the drawn engine value is the argument rngv. -/
def FullyRandom.app (s : Striping) (rngv : Nat) : Nat :=
  (s.begin_ + rngv % s.diff_) % U64

/-- io::SimpleRandom: the Striping fields plus the offset_ chosen once at
construction. -/
structure SimpleRandom where
  begin_ : Nat
  diff_ : Nat
  offset_ : Nat
deriving DecidableEq

/-- The SimpleRandom(b, e) constructor with init(): offset_ = rng() % diff_,
the drawn engine value being rngv. -/
def SimpleRandom.ofRange (b e rngv : Nat) : SimpleRandom :=
  ⟨b, e - b, rngv % (e - b)⟩

/-- SimpleRandom::operator(): begin_ + (i + offset_) % diff_, with the sum
i + offset_ wrapping in size_t before the modulus. -/
def SimpleRandom.app (s : SimpleRandom) (i : Nat) : Nat :=
  (s.begin_ + ((i + s.offset_) % U64) % s.diff_) % U64

/-- io::RandomCyclic: the Striping fields plus the perm_ vector, filled with
0 .. diff_ - 1 by init() and then shuffled by std::random_shuffle. -/
structure RandomCyclic where
  begin_ : Nat
  diff_ : Nat
  perm_ : List Nat
deriving DecidableEq

/-- RandomCyclic::operator(): begin_ + perm_[i % diff_], computed in
size_t. -/
def RandomCyclic.app (s : RandomCyclic) (i : Nat) : Nat :=
  (s.begin_ + s.perm_.getD (i % s.diff_) 0) % U64

/-- C10: over a disk range [b, e) with b < e (and e within the size_t value
space), every index is mapped into [b, e) by Striping, FullyRandom,
SimpleRandom, and by RandomCyclic for every permutation perm_ of
0 .. e - b - 1 that std::random_shuffle can produce. -/
theorem c10_alloc_strategies_in_range :
    ∀ (b e i rngv : Nat), b < e → e ≤ U64 →
    (b ≤ Striping.app (Striping.ofRange b e) i ∧
      Striping.app (Striping.ofRange b e) i < e) ∧
    (b ≤ FullyRandom.app (Striping.ofRange b e) rngv ∧
      FullyRandom.app (Striping.ofRange b e) rngv < e) ∧
    (b ≤ SimpleRandom.app (SimpleRandom.ofRange b e rngv) i ∧
      SimpleRandom.app (SimpleRandom.ofRange b e rngv) i < e) ∧
    (∀ perm : List Nat, perm.Perm (List.range (e - b)) →
      b ≤ RandomCyclic.app ⟨b, e - b, perm⟩ i ∧
      RandomCyclic.app ⟨b, e - b, perm⟩ i < e) := by
  intro b e i rngv hbe heU
  have hdpos : 0 < e - b := by omega
  have hmod : ∀ x : Nat, x % (e - b) < e - b := fun x => Nat.mod_lt x hdpos
  have hsmall : ∀ x : Nat, x < e - b → (b + x) % U64 = b + x := by
    intro x hx
    exact Nat.mod_eq_of_lt (by omega)
  refine ⟨?_, ?_, ?_, ?_⟩
  · rw [Striping.app, Striping.ofRange, hsmall _ (hmod i)]
    have := hmod i
    omega
  · rw [FullyRandom.app, Striping.ofRange, hsmall _ (hmod rngv)]
    have := hmod rngv
    omega
  · simp only [SimpleRandom.app, SimpleRandom.ofRange]
    rw [hsmall _ (hmod _)]
    have := hmod ((i + rngv % (e - b)) % U64)
    omega
  · intro perm hperm
    have hlen : perm.length = e - b := by
      rw [hperm.length_eq, List.length_range]
    have hi : i % (e - b) < perm.length := by
      rw [hlen]
      exact hmod i
    have hget : perm.getD (i % (e - b)) 0 = perm.get ⟨i % (e - b), hi⟩ :=
      List.getD_eq_get perm 0 hi
    have hmem : perm.get ⟨i % (e - b), hi⟩ ∈ perm := perm.get_mem _ hi
    have hlt : perm.get ⟨i % (e - b), hi⟩ < e - b := by
      have := hperm.mem_iff.mp hmem
      exact List.mem_range.mp this
    rw [RandomCyclic.app]
    simp only [hget]
    rw [hsmall _ hlt]
    omega

/-- Witness for c10_alloc_strategies_in_range at b = 2, e = 5, i = 7,
rngv = 9, with the concrete shuffle [1, 2, 0]. -/
theorem c10_witness :
    ((2 : Nat) ≤ Striping.app (Striping.ofRange 2 5) 7 ∧
      Striping.app (Striping.ofRange 2 5) 7 < 5) ∧
    ((2 : Nat) ≤ RandomCyclic.app ⟨2, 3, [1, 2, 0]⟩ 7 ∧
      RandomCyclic.app ⟨2, 3, [1, 2, 0]⟩ 7 < 5) :=
  ⟨(c10_alloc_strategies_in_range 2 5 7 9 (by decide) (by norm_num [U64])).1,
    (c10_alloc_strategies_in_range 2 5 7 9 (by decide) (by norm_num [U64])).2.2.2
      [1, 2, 0] (by decide)⟩

/-! Embedding of the Dispatcher timer machinery: struct Timer with
operator< comparing next_timeout reversed, TimerPQ = std::priority_queue
over std::vector (the libstdc++ __push_heap / __adjust_heap algorithms,
embedded index by index and cross validated against the real library),
AddTimer, the timer drain loop of Dispatch() and the DispatchOne wait
computation.  Time points are steady_clock nanosecond counts. -/

/-- Dispatcher::Timer: the absolute next_timeout (nanoseconds), the
relative timeout for restarting, and an insertion id standing for the
callback object.  Timer::operator<(b) is next_timeout > b.next_timeout,
making the priority queue a min heap on next_timeout. -/
structure Timer where
  next_timeout : Nat
  timeout : Nat
  id : Nat
deriving DecidableEq

/-- Heap vector read a[i]; every access the algorithms perform is in
range, the default is immaterial. -/
def nth (a : List Timer) (i : Nat) : Timer := a.getD i ⟨0, 0, 0⟩

/-- Heap vector write a[i] = x. -/
def upd (a : List Timer) (i : Nat) (x : Timer) : List Timer := a.set i x

/-- Index of the parent of heap slot i. -/
def parentIdx (i : Nat) : Nat := (i - 1) / 2

/-- libstdc++ __push_heap with topIndex 0: sift the value v up from the
hole, moving each parent down while comp(parent, value) holds, where comp
is Timer::operator<, so the test is parent.next_timeout > v.next_timeout.
Structural on a fuel argument; the hole index strictly decreases, so any
fuel at least the initial hole index gives the untruncated loop. -/
def siftUpAux : Nat → List Timer → Nat → Timer → List Timer
  | 0, a, hole, v => upd a hole v
  | fuel + 1, a, hole, v =>
    if 0 < hole ∧ (nth a (parentIdx hole)).next_timeout > v.next_timeout then
      siftUpAux fuel (upd a hole (nth a (parentIdx hole))) (parentIdx hole) v
    else upd a hole v

/-- __push_heap entry point (fuel = initial hole suffices). -/
def siftUp (a : List Timer) (hole : Nat) (v : Timer) : List Timer :=
  siftUpAux hole a hole v

/-- priority_queue::push / emplace: vector::push_back then std::push_heap
over the whole vector. -/
def pqPush (a : List Timer) (v : Timer) : List Timer :=
  siftUp (a ++ [v]) a.length v

/-- The descent loop of libstdc++ __adjust_heap: while the hole is above
the last full level (holeIndex < (len - 1) / 2), move the preferred child
into the hole (the left child when comp(a[2h+2], a[2h+1]) holds, else the
right child) and descend.  Structural on fuel; the hole strictly
increases below len, so fuel = len suffices. -/
def adjustLoopAux : Nat → List Timer → Nat → Nat → List Timer × Nat
  | 0, a, hole, _ => (a, hole)
  | fuel + 1, a, hole, len =>
    if hole < (len - 1) / 2 then
      let sc2 := 2 * hole + 2
      let c := if (nth a sc2).next_timeout > (nth a (sc2 - 1)).next_timeout
        then sc2 - 1 else sc2
      adjustLoopAux fuel (upd a hole (nth a c)) c len
    else (a, hole)

/-- __adjust_heap descent loop entry point. -/
def adjustLoop (a : List Timer) (hole len : Nat) : List Timer × Nat :=
  adjustLoopAux len a hole len

/-- libstdc++ __adjust_heap with holeIndex = topIndex = 0 (as used by
__pop_heap): the descent loop, then the special case of an even length
where the hole stops at the unique node with only a left child (that child
is moved up and the hole becomes the last slot), then __push_heap of the
value from the final hole. -/
def adjustHeap (a : List Timer) (len : Nat) (v : Timer) : List Timer :=
  let p := adjustLoop a 0 len
  if len % 2 = 0 ∧ p.2 = (len - 2) / 2 then
    siftUp (upd p.1 p.2 (nth p.1 (2 * p.2 + 1))) (2 * p.2 + 1) v
  else
    siftUp p.1 p.2 v

/-- priority_queue::pop: std::pop_heap then vector::pop_back.  For more
than one element the old last value is adjusted into the heap over the
first len - 1 slots; the popped root leaves in the dropped last slot. -/
def pqPop (a : List Timer) : List Timer :=
  if a.length ≤ 1 then []
  else adjustHeap (a.take (a.length - 1)) (a.length - 1) (nth a (a.length - 1))

/-- priority_queue::top: the root of the heap vector. -/
def pqTop (a : List Timer) : Timer := nth a 0

/-- Dispatcher::AddTimer: timer_pq_.emplace(now + timeout, timeout, cb). -/
def addTimer (a : List Timer) (now timeout id : Nat) : List Timer :=
  pqPush a ⟨now + timeout, timeout, id⟩

/-- The timer drain loop at the top of Dispatcher::Dispatch: while not
terminated, the queue is non-empty and the top entry is due
(next_timeout <= now): run the top callback (beh of its id gives the
returned bool), when it returns true emplace the requeued timer at the
original expiry plus its timeout, then pop (the push then pop pair is
drainNext).  The fires are collected in
callback invocation order.  Fuel bounds the number of iterations (a zero
interval repeating timer makes the source loop diverge); none reports
exhausted fuel.  A callback that flips terminate_ mid drain is not
modelled: term is fixed for the whole drain. -/
def drainNext (beh : Nat → Bool) (pq : List Timer) : List Timer :=
  pqPop (if beh (pqTop pq).id then
    pqPush pq ⟨(pqTop pq).next_timeout + (pqTop pq).timeout,
      (pqTop pq).timeout, (pqTop pq).id⟩
  else pq)

def drain (beh : Nat → Bool) (term : Bool) (now : Nat) :
    Nat → List Timer → Option (List Timer × List Timer)
  | 0, pq =>
    if term = false ∧ pq ≠ [] ∧ (pqTop pq).next_timeout ≤ now then none
    else some (pq, [])
  | fuel + 1, pq =>
    if term = false ∧ pq ≠ [] ∧ (pqTop pq).next_timeout ≤ now then
      match drain beh term now fuel (drainNext beh pq) with
      | none => none
      | some (pq2, fires) => some (pq2, pqTop pq :: fires)
    else some (pq, [])

/-- The wait computation of Dispatcher::Dispatch after the drain: an empty
timer queue waits 10000 milliseconds; otherwise
duration_cast<milliseconds>(top.next_timeout - now), the truncating
division of the nanosecond difference by 10^6, raised to 1 millisecond if
smaller.  The drain guarantees top.next_timeout > now here, so the Nat
subtraction agrees with the signed C++ duration. -/
def dispatchWaitMs (pq : List Timer) (now : Nat) : Nat :=
  if pq = [] then 10000
  else
    let diff := ((pqTop pq).next_timeout - now) / 1000000
    if diff < 1 then 1 else diff

/-- One Dispatch() iteration restricted to its timer logic: capture now,
drain due timers, return early when terminated, otherwise invoke exactly
one DispatchOne with the computed wait.  The result carries the queue
after the drain, the fires, and the list of DispatchOne arguments
(milliseconds). -/
def dispatchTimerPhase (beh : Nat → Bool) (term : Bool) (now fuel : Nat)
    (pq : List Timer) : Option (List Timer × List Timer × List Nat) :=
  match drain beh term now fuel pq with
  | none => none
  | some (pq1, fires) =>
    if term then some (pq1, fires, [])
    else some (pq1, fires, [dispatchWaitMs pq1 now])

/-! Basic facts about the heap vector primitives. -/

lemma length_upd (a : List Timer) (i : Nat) (x : Timer) :
    (upd a i x).length = a.length :=
  List.length_set a i x

lemma nth_upd_eq : ∀ (a : List Timer) (i : Nat) (x : Timer),
    i < a.length → nth (upd a i x) i = x := by
  intro a
  induction a with
  | nil =>
    intro i x h
    simp at h
  | cons hd tl ih =>
    intro i x h
    cases i with
    | zero => rfl
    | succ n => exact ih n x (by simpa using h)

lemma nth_upd_ne : ∀ (a : List Timer) (i j : Nat) (x : Timer),
    i ≠ j → nth (upd a i x) j = nth a j := by
  intro a
  induction a with
  | nil =>
    intro i j x hij
    rfl
  | cons hd tl ih =>
    intro i j x hij
    cases i with
    | zero =>
      cases j with
      | zero => exact absurd rfl hij
      | succ m => rfl
    | succ n =>
      cases j with
      | zero => rfl
      | succ m => exact ih n m x (by omega)

lemma nth_mem : ∀ (a : List Timer) (i : Nat), i < a.length → nth a i ∈ a := by
  intro a
  induction a with
  | nil =>
    intro i h
    simp at h
  | cons hd tl ih =>
    intro i h
    cases i with
    | zero => exact List.mem_cons_self hd tl
    | succ n => exact List.mem_cons_of_mem hd (ih n (by simpa using h))

lemma mem_upd : ∀ (a : List Timer) (i : Nat) (x y : Timer),
    y ∈ upd a i x → y = x ∨ y ∈ a := by
  intro a
  induction a with
  | nil =>
    intro i x y h
    exact Or.inr h
  | cons hd tl ih =>
    intro i x y h
    cases i with
    | zero =>
      rcases List.mem_cons.mp h with rfl | ht
      · exact Or.inl rfl
      · exact Or.inr (List.mem_cons_of_mem hd ht)
    | succ n =>
      rcases List.mem_cons.mp h with rfl | ht
      · exact Or.inr (List.mem_cons_self y tl)
      · rcases ih n x y ht with h1 | h1
        · exact Or.inl h1
        · exact Or.inr (List.mem_cons_of_mem hd h1)

lemma nth_append_lt : ∀ (a b : List Timer) (i : Nat),
    i < a.length → nth (a ++ b) i = nth a i := by
  intro a
  induction a with
  | nil =>
    intro b i h
    simp at h
  | cons hd tl ih =>
    intro b i h
    cases i with
    | zero => rfl
    | succ n => exact ih b n (by simpa using h)

lemma nth_append_self : ∀ (a : List Timer) (v : Timer),
    nth (a ++ [v]) a.length = v := by
  intro a v
  induction a with
  | nil => rfl
  | cons hd tl ih => exact ih

lemma nth_take : ∀ (a : List Timer) (k i : Nat), i < k →
    nth (a.take k) i = nth a i := by
  intro a
  induction a with
  | nil =>
    intro k i h
    simp [nth]
  | cons hd tl ih =>
    intro k i h
    cases k with
    | zero => omega
    | succ m =>
      cases i with
      | zero => rfl
      | succ n => exact ih m n (by omega)

lemma mem_take {a : List Timer} {k : Nat} {y : Timer} (h : y ∈ a.take k) :
    y ∈ a :=
  List.mem_of_mem_take h

/-- The heap invariant of the timer vector: every non root slot is at least
its parent on next_timeout (a min heap, since Timer::operator< reverses the
comparison for std::priority_queue). -/
def heapOrd (a : List Timer) : Prop :=
  ∀ i, 0 < i → i < a.length →
    (nth a (parentIdx i)).next_timeout ≤ (nth a i).next_timeout

/-- The heap invariant away from a hole: all parent child relations hold
except those in which the hole takes part. -/
def heapExcept (a : List Timer) (hole : Nat) : Prop :=
  ∀ i, 0 < i → i < a.length → i ≠ hole → parentIdx i ≠ hole →
    (nth a (parentIdx i)).next_timeout ≤ (nth a i).next_timeout

/-- The children of the hole each dominate the parent of the hole. -/
def holeChildrenGeParent (a : List Timer) (hole : Nat) : Prop :=
  ∀ i, 0 < i → i < a.length → parentIdx i = hole → 0 < hole →
    (nth a (parentIdx hole)).next_timeout ≤ (nth a i).next_timeout

lemma siftUpAux_length : ∀ (fuel : Nat) (a : List Timer) (hole : Nat) (v : Timer),
    (siftUpAux fuel a hole v).length = a.length := by
  intro fuel
  induction fuel with
  | zero =>
    intro a hole v
    exact length_upd a hole v
  | succ n ih =>
    intro a hole v
    simp only [siftUpAux]
    split
    · rw [ih, length_upd]
    · exact length_upd a hole v

lemma siftUpAux_mem : ∀ (fuel : Nat) (a : List Timer) (hole : Nat) (v y : Timer),
    hole < a.length → y ∈ siftUpAux fuel a hole v → y = v ∨ y ∈ a := by
  intro fuel
  induction fuel with
  | zero =>
    intro a hole v y hlt h
    exact mem_upd a hole v y h
  | succ n ih =>
    intro a hole v y hlt h
    simp only [siftUpAux] at h
    split at h
    · rename_i hc
      have hp : parentIdx hole < a.length := by
        have : parentIdx hole < hole := by
          unfold parentIdx
          omega
        omega
      have := ih (upd a hole (nth a (parentIdx hole))) (parentIdx hole) v y
        (by rw [length_upd]; omega) h
      rcases this with h1 | h1
      · exact Or.inl h1
      · rcases mem_upd a hole _ y h1 with h2 | h2
        · exact Or.inr (h2 ▸ nth_mem a (parentIdx hole) hp)
        · exact Or.inr h2
    · exact mem_upd a hole v y h

/-- Correctness of the libstdc++ sift up: from a hole heap configuration it
rebuilds a full heap. -/
lemma siftUpAux_heapOrd : ∀ (fuel : Nat) (a : List Timer) (hole : Nat) (v : Timer),
    hole ≤ fuel → hole < a.length →
    heapExcept a hole →
    (∀ i, 0 < i → i < a.length → parentIdx i = hole →
      v.next_timeout ≤ (nth a i).next_timeout) →
    holeChildrenGeParent a hole →
    heapOrd (siftUpAux fuel a hole v) := by
  intro fuel
  induction fuel with
  | zero =>
    intro a hole v hfuel hlt hex hch hgp
    have hhole : hole = 0 := by omega
    subst hhole
    simp only [siftUpAux]
    intro i hi hlen
    rw [length_upd] at hlen
    have hine : i ≠ 0 := by omega
    rw [nth_upd_ne a 0 i v (fun h => hine h.symm)]
    by_cases hip : parentIdx i = 0
    · rw [hip, nth_upd_eq a 0 v hlt]
      exact hch i hi hlen hip
    · rw [nth_upd_ne a 0 (parentIdx i) v (fun h => hip h.symm)]
      exact hex i hi hlen hine hip
  | succ n ih =>
    intro a hole v hfuel hlt hex hch hgp
    simp only [siftUpAux]
    by_cases hc : 0 < hole ∧ (nth a (parentIdx hole)).next_timeout > v.next_timeout
    · rw [if_pos hc]
      have hparlt : parentIdx hole < hole := by
        unfold parentIdx
        omega
      apply ih
      · omega
      · rw [length_upd]
        omega
      · -- heapExcept of the moved configuration at the parent hole
        intro i hi hlen hine hipne
        rw [length_upd] at hlen
        by_cases hih : i = hole
        · subst hih
          exact absurd rfl hipne
        · rw [nth_upd_ne a hole i _ (fun h => hih h.symm)]
          by_cases hip : parentIdx i = hole
          · rw [hip, nth_upd_eq a hole _ hlt]
            exact hgp i hi hlen hip hc.1
          · rw [nth_upd_ne a hole (parentIdx i) _ (fun h => hip h.symm)]
            exact hex i hi hlen hih hip
      · -- children of the new hole dominate v
        intro i hi hlen hip
        rw [length_upd] at hlen
        by_cases hih : i = hole
        · subst hih
          rw [nth_upd_eq a i _ hlt]
          exact le_of_lt hc.2
        · rw [nth_upd_ne a hole i _ (fun h => hih h.symm)]
          have hhex := hex i hi hlen hih (by omega)
          rw [hip] at hhex
          exact le_trans (le_of_lt hc.2) hhex
      · -- children of the new hole dominate its parent
        intro i hi hlen hip hpos
        rw [length_upd] at hlen
        have hppne : parentIdx (parentIdx hole) ≠ hole := by
          have : parentIdx (parentIdx hole) ≤ parentIdx hole := by
            unfold parentIdx
            omega
          omega
        rw [nth_upd_ne a hole (parentIdx (parentIdx hole)) _ (by omega)]
        have hq : (nth a (parentIdx (parentIdx hole))).next_timeout ≤
            (nth a (parentIdx hole)).next_timeout :=
          hex (parentIdx hole) hpos (by omega) (by omega) hppne
        by_cases hih : i = hole
        · subst hih
          rw [nth_upd_eq a i _ hlt]
          exact hq
        · rw [nth_upd_ne a hole i _ (fun h => hih h.symm)]
          have hhex := hex i hi hlen hih (by omega)
          rw [hip] at hhex
          exact le_trans hq hhex
    · rw [if_neg hc]
      intro i hi hlen
      rw [length_upd] at hlen
      by_cases hih : i = hole
      · subst hih
        have hpos : 0 < i := hi
        have hpne : parentIdx i ≠ i := by
          unfold parentIdx
          omega
        rw [nth_upd_eq a i v hlt, nth_upd_ne a i (parentIdx i) v (fun h => hpne h.symm)]
        have : ¬(nth a (parentIdx i)).next_timeout > v.next_timeout := by
          intro hgt
          exact hc ⟨hpos, hgt⟩
        omega
      · rw [nth_upd_ne a hole i v (fun h => hih h.symm)]
        by_cases hip : parentIdx i = hole
        · rw [hip, nth_upd_eq a hole v hlt]
          exact hch i hi hlen hip
        · rw [nth_upd_ne a hole (parentIdx i) v (fun h => hip h.symm)]
          exact hex i hi hlen hih hip

lemma pqPush_length (a : List Timer) (v : Timer) :
    (pqPush a v).length = a.length + 1 := by
  rw [pqPush, siftUp, siftUpAux_length, List.length_append, List.length_singleton]

lemma pqPush_heapOrd {a : List Timer} (h : heapOrd a) (v : Timer) :
    heapOrd (pqPush a v) := by
  rw [pqPush, siftUp]
  apply siftUpAux_heapOrd
  · exact le_refl _
  · simp
  · intro i hi hlen hine hipne
    simp only [List.length_append, List.length_singleton] at hlen
    have hilt : i < a.length := by omega
    have hplt : parentIdx i < a.length := by
      unfold parentIdx
      omega
    rw [nth_append_lt a [v] i hilt, nth_append_lt a [v] (parentIdx i) hplt]
    exact h i hi hilt
  · intro i hi hlen hip
    simp only [List.length_append, List.length_singleton] at hlen
    unfold parentIdx at hip
    omega
  · intro i hi hlen hip hpos
    simp only [List.length_append, List.length_singleton] at hlen
    unfold parentIdx at hip
    omega

lemma pqPush_mem {a : List Timer} {v y : Timer} (h : y ∈ pqPush a v) :
    y = v ∨ y ∈ a := by
  rw [pqPush, siftUp] at h
  have := siftUpAux_mem a.length (a ++ [v]) a.length v y (by simp) h
  rcases this with h1 | h1
  · exact Or.inl h1
  · rcases List.mem_append.mp h1 with h2 | h2
    · exact Or.inr h2
    · exact Or.inl (List.mem_singleton.mp h2)

lemma adjustLoopAux_length : ∀ (fuel : Nat) (a : List Timer) (hole len : Nat),
    (adjustLoopAux fuel a hole len).1.length = a.length := by
  intro fuel
  induction fuel with
  | zero =>
    intro a hole len
    rfl
  | succ n ih =>
    intro a hole len
    simp only [adjustLoopAux]
    split
    · rw [ih, length_upd]
    · rfl

lemma adjustLoopAux_hole_lt : ∀ (fuel : Nat) (a : List Timer) (hole len : Nat),
    hole < len → (adjustLoopAux fuel a hole len).2 < len := by
  intro fuel
  induction fuel with
  | zero =>
    intro a hole len h
    exact h
  | succ n ih =>
    intro a hole len h
    simp only [adjustLoopAux]
    split
    · rename_i hc
      apply ih
      split <;> omega
    · exact h

lemma adjustLoopAux_mem : ∀ (fuel : Nat) (a : List Timer) (hole len : Nat)
    (y : Timer), len = a.length →
    y ∈ (adjustLoopAux fuel a hole len).1 → y ∈ a := by
  intro fuel
  induction fuel with
  | zero =>
    intro a hole len y hlen h
    exact h
  | succ n ih =>
    intro a hole len y hlen h
    simp only [adjustLoopAux] at h
    split at h
    · rename_i hc
      set c := if (nth a (2 * hole + 2)).next_timeout >
          (nth a (2 * hole + 2 - 1)).next_timeout
        then 2 * hole + 2 - 1 else 2 * hole + 2 with hcdef
      have hclt : c < a.length := by
        rw [hcdef]
        split <;> omega
      have := ih (upd a hole (nth a c)) c len y (by rw [length_upd]; exact hlen) h
      rcases mem_upd a hole (nth a c) y this with h1 | h1
      · exact h1 ▸ nth_mem a c hclt
      · exact h1
    · exact h

/-- Specification of the __adjust_heap descent loop: it preserves the hole
heap invariants, ends with the hole at a node of the last full level or
below, and moves only existing elements. -/
lemma adjustLoopAux_spec : ∀ (fuel : Nat) (a : List Timer) (hole len : Nat),
    len = a.length → hole < len → len - hole ≤ fuel →
    heapExcept a hole → holeChildrenGeParent a hole →
    ¬((adjustLoopAux fuel a hole len).2 < (len - 1) / 2) ∧
    heapExcept (adjustLoopAux fuel a hole len).1 (adjustLoopAux fuel a hole len).2 ∧
    holeChildrenGeParent (adjustLoopAux fuel a hole len).1
      (adjustLoopAux fuel a hole len).2 := by
  intro fuel
  induction fuel with
  | zero =>
    intro a hole len hlen hholt hfuel hex hgp
    omega
  | succ n ih =>
    intro a hole len hlen hholt hfuel hex hgp
    simp only [adjustLoopAux]
    by_cases hcond : hole < (len - 1) / 2
    · rw [if_pos hcond]
      set c := if (nth a (2 * hole + 2)).next_timeout >
          (nth a (2 * hole + 2 - 1)).next_timeout
        then 2 * hole + 2 - 1 else 2 * hole + 2 with hcdef
      have hcrange : 2 * hole + 1 ≤ c ∧ c ≤ 2 * hole + 2 ∧ c ≤ len - 1 := by
        rw [hcdef]
        split <;> omega
      have hcpar : parentIdx c = hole := by
        unfold parentIdx
        omega
      have hcmin : ∀ j, parentIdx j = hole → 0 < j → j < len →
          (nth a c).next_timeout ≤ (nth a j).next_timeout := by
        intro j hj hj0 hjlt
        unfold parentIdx at hj
        have hjor : j = 2 * hole + 1 ∨ j = 2 * hole + 2 := by omega
        rw [hcdef]
        split
        · rename_i hcc
          rcases hjor with rfl | rfl
          · exact le_refl _
          · exact le_of_lt (by simpa using hcc)
        · rename_i hcc
          rcases hjor with rfl | rfl
          · simpa using hcc
          · exact le_refl _
      apply ih
      · rw [length_upd]
        exact hlen
      · omega
      · omega
      · -- heapExcept of the descended configuration
        intro i hi hlen2 hine hipne
        rw [length_upd] at hlen2
        by_cases hih : i = hole
        · subst hih
          have hipos : 0 < i := hi
          have hpne : parentIdx i ≠ i := by
            unfold parentIdx
            omega
          rw [nth_upd_eq a i _ (by omega),
            nth_upd_ne a i (parentIdx i) _ (fun h => hpne h.symm)]
          exact hgp c (by omega) (by omega) hcpar hipos
        · rw [nth_upd_ne a hole i _ (fun h => hih h.symm)]
          by_cases hip : parentIdx i = hole
          · rw [hip, nth_upd_eq a hole _ (by omega)]
            exact hcmin i hip hi (by omega)
          · rw [nth_upd_ne a hole (parentIdx i) _ (fun h => hip h.symm)]
            exact hex i hi hlen2 hih hip
      · -- children of the new hole c dominate its parent (the old hole slot,
        -- which now carries a[c])
        intro i hi hlen2 hip hcpos
        rw [length_upd] at hlen2
        rw [hcpar, nth_upd_eq a hole _ (by omega)]
        have hine : i ≠ hole := by
          unfold parentIdx at hip
          omega
        have hipne : parentIdx i ≠ hole := by
          rw [hip]
          omega
        rw [nth_upd_ne a hole i _ (fun h => hine h.symm)]
        have := hex i hi hlen2 hine hipne
        rw [hip] at this
        exact this
    · rw [if_neg hcond]
      exact ⟨hcond, hex, hgp⟩

lemma adjustLoop_length (a : List Timer) (hole len : Nat) :
    (adjustLoop a hole len).1.length = a.length :=
  adjustLoopAux_length len a hole len

lemma adjustLoop_hole_lt (a : List Timer) (hole len : Nat) (h : hole < len) :
    (adjustLoop a hole len).2 < len :=
  adjustLoopAux_hole_lt len a hole len h

lemma adjustLoop_mem {a : List Timer} {hole len : Nat} {y : Timer}
    (hlen : len = a.length) (h : y ∈ (adjustLoop a hole len).1) : y ∈ a :=
  adjustLoopAux_mem len a hole len y hlen h

lemma adjustLoop_spec {a : List Timer} {hole len : Nat}
    (hlen : len = a.length) (hholt : hole < len)
    (hex : heapExcept a hole) (hgp : holeChildrenGeParent a hole) :
    ¬((adjustLoop a hole len).2 < (len - 1) / 2) ∧
    heapExcept (adjustLoop a hole len).1 (adjustLoop a hole len).2 ∧
    holeChildrenGeParent (adjustLoop a hole len).1 (adjustLoop a hole len).2 :=
  adjustLoopAux_spec len a hole len hlen hholt (by omega) hex hgp

lemma adjustHeap_length (a : List Timer) (len : Nat) (v : Timer) :
    (adjustHeap a len v).length = a.length := by
  rw [adjustHeap]
  split
  · rw [siftUp, siftUpAux_length, length_upd, adjustLoop_length]
  · rw [siftUp, siftUpAux_length, adjustLoop_length]

lemma adjustHeap_mem {a : List Timer} {len : Nat} {v y : Timer}
    (hlen : len = a.length) (hpos : 0 < len)
    (h : y ∈ adjustHeap a len v) : y = v ∨ y ∈ a := by
  rw [adjustHeap] at h
  have hh1 : (adjustLoop a 0 len).2 < len := adjustLoop_hole_lt a 0 len hpos
  have hlen1 : (adjustLoop a 0 len).1.length = a.length := adjustLoop_length a 0 len
  split at h
  · rename_i heven
    have hjlt : 2 * (adjustLoop a 0 len).2 + 1 < (adjustLoop a 0 len).1.length := by
      omega
    have := siftUpAux_mem _ _ _ v y (by rw [length_upd]; exact hjlt) h
    rcases this with h1 | h1
    · exact Or.inl h1
    · rcases mem_upd _ _ _ y h1 with h2 | h2
      · exact Or.inr (adjustLoop_mem hlen (h2 ▸ nth_mem _ _ hjlt))
      · exact Or.inr (adjustLoop_mem hlen h2)
  · have := siftUpAux_mem _ _ _ v y (by omega) h
    rcases this with h1 | h1
    · exact Or.inl h1
    · exact Or.inr (adjustLoop_mem hlen h1)

lemma adjustHeap_heapOrd {a : List Timer} {len : Nat} (v : Timer)
    (hlen : len = a.length) (hpos : 0 < len) (hex : heapExcept a 0) :
    heapOrd (adjustHeap a len v) := by
  have hgp0 : holeChildrenGeParent a 0 := by
    intro i hi hl hp h0
    omega
  obtain ⟨hstop, hex1, hgp1⟩ := adjustLoop_spec hlen hpos hex hgp0
  have hh1 : (adjustLoop a 0 len).2 < len := adjustLoop_hole_lt a 0 len hpos
  have hlen1 : (adjustLoop a 0 len).1.length = a.length := adjustLoop_length a 0 len
  rw [adjustHeap]
  split
  · rename_i heven
    have hj : 2 * (adjustLoop a 0 len).2 + 1 = len - 1 := by omega
    have hjlt : 2 * (adjustLoop a 0 len).2 + 1 < (adjustLoop a 0 len).1.length := by
      omega
    rw [siftUp]
    apply siftUpAux_heapOrd
    · exact le_refl _
    · rw [length_upd]
      exact hjlt
    · -- heapExcept with the left child moved into the hole
      intro i hi hlen2 hine hipne
      rw [length_upd] at hlen2
      by_cases hih : i = (adjustLoop a 0 len).2
      · have hpos1 : 0 < (adjustLoop a 0 len).2 := hih ▸ hi
        have hpne : parentIdx (adjustLoop a 0 len).2 ≠ (adjustLoop a 0 len).2 := by
          unfold parentIdx
          omega
        rw [hih, nth_upd_eq _ _ _ (by omega),
          nth_upd_ne _ _ _ _ (fun h => hpne h.symm)]
        exact hgp1 (2 * (adjustLoop a 0 len).2 + 1) (by omega) (by omega)
          (by unfold parentIdx; omega) hpos1
      · rw [nth_upd_ne _ _ i _ (fun h => hih h.symm)]
        by_cases hip : parentIdx i = (adjustLoop a 0 len).2
        · have : i = 2 * (adjustLoop a 0 len).2 + 1 := by
            unfold parentIdx at hip
            omega
          exact absurd this hine
        · rw [nth_upd_ne _ _ _ _ (fun h => hip h.symm)]
          exact hex1 i hi hlen2 hih hip
    · intro i hi hlen2 hip
      rw [length_upd] at hlen2
      unfold parentIdx at hip
      omega
    · intro i hi hlen2 hip hpos2
      rw [length_upd] at hlen2
      unfold parentIdx at hip
      omega
  · rename_i hnoteven
    rw [siftUp]
    apply siftUpAux_heapOrd
    · exact le_refl _
    · omega
    · exact hex1
    · intro i hi hlen2 hip
      rw [hlen1] at hlen2
      unfold parentIdx at hip
      omega
    · exact hgp1

lemma pqPop_length (a : List Timer) : (pqPop a).length = a.length - 1 := by
  rw [pqPop]
  split
  · rename_i hle
    simp only [List.length_nil]
    omega
  · rw [adjustHeap_length, List.length_take]
    omega

lemma pqPop_heapOrd {a : List Timer} (h : heapOrd a) : heapOrd (pqPop a) := by
  rw [pqPop]
  split
  · intro i hi hlen
    simp at hlen
  · rename_i hgt
    apply adjustHeap_heapOrd
    · rw [List.length_take]
      omega
    · omega
    · intro i hi hlen hine hipne
      simp only [List.length_take] at hlen
      have hilt : i < a.length - 1 := by omega
      have hplt : parentIdx i < a.length - 1 := by
        unfold parentIdx
        omega
      rw [nth_take a (a.length - 1) i hilt, nth_take a (a.length - 1) (parentIdx i) hplt]
      exact h i hi (by omega)

lemma pqPop_mem {a : List Timer} {y : Timer} (h : y ∈ pqPop a) : y ∈ a := by
  rw [pqPop] at h
  split at h
  · simp at h
  · rename_i hgt
    have := adjustHeap_mem (by rw [List.length_take]; omega) (by omega) h
    rcases this with h1 | h1
    · exact h1 ▸ nth_mem a (a.length - 1) (by omega)
    · exact mem_take h1

/-- In a heap ordered vector the root is a minimum. -/
lemma heapOrd_root_le {a : List Timer} (h : heapOrd a) :
    ∀ i, i < a.length → (nth a 0).next_timeout ≤ (nth a i).next_timeout := by
  intro i
  induction i using Nat.strong_induction_on with
  | _ i ih =>
    intro hi
    rcases Nat.eq_zero_or_pos i with rfl | hpos
    · exact le_refl _
    · have hp : parentIdx i < i := by
        unfold parentIdx
        omega
      exact le_trans (ih (parentIdx i) hp (by omega)) (h i hpos hi)

/-- In a heap ordered vector the top is below every member. -/
lemma heapOrd_top_le_mem {a : List Timer} (h : heapOrd a) :
    ∀ x ∈ a, (pqTop a).next_timeout ≤ x.next_timeout := by
  intro x hx
  obtain ⟨⟨n, hn0⟩, hget⟩ := List.mem_iff_get.mp hx
  have hnth : nth a n = x := by
    rw [nth, List.getD_eq_get a _ hn0]
    exact hget
  rw [pqTop, ← hnth]
  exact heapOrd_root_le h n hn0

lemma drainNext_heapOrd {beh : Nat → Bool} {pq : List Timer} (h : heapOrd pq) :
    heapOrd (drainNext beh pq) := by
  rw [drainNext]
  apply pqPop_heapOrd
  split
  · exact pqPush_heapOrd h _
  · exact h

lemma drainNext_mem {beh : Nat → Bool} {pq : List Timer} {y : Timer}
    (h : y ∈ drainNext beh pq) :
    y ∈ pq ∨ y = ⟨(pqTop pq).next_timeout + (pqTop pq).timeout,
      (pqTop pq).timeout, (pqTop pq).id⟩ := by
  rw [drainNext] at h
  have := pqPop_mem h
  split at this
  · rcases pqPush_mem this with h1 | h1
    · exact Or.inr h1
    · exact Or.inl h1
  · exact Or.inl this

/-- Every element of the queue after one drain step dominates the fired
top of a heap ordered queue. -/
lemma drainNext_lb {beh : Nat → Bool} {pq : List Timer} (h : heapOrd pq) :
    ∀ y ∈ drainNext beh pq, (pqTop pq).next_timeout ≤ y.next_timeout := by
  intro y hy
  rcases drainNext_mem hy with h1 | h1
  · exact heapOrd_top_le_mem h y h1
  · rw [h1]
    exact Nat.le_add_right _ _

/-- After a completed drain with terminate unset, a non-empty remaining
queue has its top strictly beyond now (the loop exit condition). -/
lemma drain_exit : ∀ (beh : Nat → Bool) (now fuel : Nat)
    (pq pq2 fires : List Timer),
    drain beh false now fuel pq = some (pq2, fires) →
    pq2 ≠ [] → ¬((pqTop pq2).next_timeout ≤ now) := by
  intro beh now fuel
  induction fuel with
  | zero =>
    intro pq pq2 fires h hne hle
    simp only [drain] at h
    split at h
    · exact Option.noConfusion h
    · rename_i hc
      simp only [Option.some.injEq, Prod.mk.injEq] at h
      obtain ⟨rfl, -⟩ := h
      exact hc ⟨by trivial, hne, hle⟩
  | succ n ih =>
    intro pq pq2 fires h hne hle
    simp only [drain] at h
    split at h
    · split at h
      · exact Option.noConfusion h
      · rename_i pq2' fires' hrec
        simp only [Option.some.injEq, Prod.mk.injEq] at h
        obtain ⟨rfl, -⟩ := h
        exact ih _ _ fires' hrec hne hle
    · rename_i hc
      simp only [Option.some.injEq, Prod.mk.injEq] at h
      obtain ⟨rfl, -⟩ := h
      exact hc ⟨by trivial, hne, hle⟩

/-- A completed drain of a heap ordered queue leaves a heap ordered queue,
fires the timers in non-decreasing next_timeout order, and every fire
dominates every lower bound of the initial queue. -/
lemma drain_sorted : ∀ (beh : Nat → Bool) (term : Bool) (now fuel : Nat)
    (pq pq2 fires : List Timer),
    heapOrd pq →
    drain beh term now fuel pq = some (pq2, fires) →
    heapOrd pq2 ∧
    List.Chain' (fun x y => x.next_timeout ≤ y.next_timeout) fires ∧
    (∀ f ∈ fires, ∀ c : Nat, (∀ x ∈ pq, c ≤ x.next_timeout) → c ≤ f.next_timeout) := by
  intro beh term now fuel
  induction fuel with
  | zero =>
    intro pq pq2 fires hord h
    simp only [drain] at h
    split at h
    · exact Option.noConfusion h
    · simp only [Option.some.injEq, Prod.mk.injEq] at h
      obtain ⟨rfl, rfl⟩ := h
      exact ⟨hord, List.chain'_nil, by simp⟩
  | succ n ih =>
    intro pq pq2 fires hord h
    simp only [drain] at h
    split at h
    · rename_i hc
      split at h
      · exact Option.noConfusion h
      · rename_i pq2' fires' hrec
        simp only [Option.some.injEq, Prod.mk.injEq] at h
        obtain ⟨rfl, rfl⟩ := h
        have hne : pq ≠ [] := hc.2.1
        have hlen0 : 0 < pq.length := by
          cases pq with
          | nil => exact absurd rfl hne
          | cons a t => simp
        have htopmem : pqTop pq ∈ pq := nth_mem pq 0 hlen0
        have hordn : heapOrd (drainNext beh pq) := drainNext_heapOrd hord
        obtain ⟨hord2, hchain, hlb⟩ := ih (drainNext beh pq) _ fires' hordn hrec
        refine ⟨hord2, ?_, ?_⟩
        · rw [List.chain'_cons']
          refine ⟨?_, hchain⟩
          intro b hb
          have hbmem : b ∈ fires' := List.mem_of_mem_head? hb
          exact hlb b hbmem (pqTop pq).next_timeout (drainNext_lb hord)
        · intro f hf c hcb
          rcases List.mem_cons.mp hf with rfl | hf1
          · exact hcb _ htopmem
          · refine hlb f hf1 c ?_
            intro x hx
            rcases drainNext_mem hx with h1 | h1
            · exact hcb x h1
            · rw [h1]
              exact le_trans (hcb _ htopmem) (Nat.le_add_right _ _)
    · simp only [Option.some.injEq, Prod.mk.injEq] at h
      obtain ⟨rfl, rfl⟩ := h
      exact ⟨hord, List.chain'_nil, by simp⟩

lemma pqPush_singleton (x v : Timer) (h : x.next_timeout ≤ v.next_timeout) :
    pqPush [x] v = [x, v] := by
  show siftUpAux 1 [x, v] 1 v = [x, v]
  simp only [siftUpAux]
  rw [if_neg]
  · rfl
  · rintro ⟨-, hgt⟩
    have hx : nth [x, v] (parentIdx 1) = x := rfl
    rw [hx] at hgt
    omega

lemma pqPop_pair (x v : Timer) : pqPop [x, v] = [v] := by
  simp [pqPop, adjustHeap, adjustLoop, adjustLoopAux, siftUp, siftUpAux, nth, upd]

lemma drainNext_singleton (e T id : Nat) :
    drainNext (fun _ => true) [⟨e, T, id⟩] = [⟨e + T, T, id⟩] := by
  rw [drainNext, if_pos rfl]
  show pqPop (pqPush [⟨e, T, id⟩] ⟨e + T, T, id⟩) = _
  rw [pqPush_singleton _ _ (by simp)]
  exact pqPop_pair _ _

/-- A drain over a singleton heap holding a repeating timer (callback
always true) fires it with scheduled expiries e, e + T, e + 2T, ... and
leaves it requeued at e plus the number of fires times T. -/
lemma drain_singleton : ∀ (fuel now e T id : Nat) (pq2 fires : List Timer),
    drain (fun _ => true) false now fuel [⟨e, T, id⟩] = some (pq2, fires) →
    (∀ k (hk : k < fires.length), fires.get ⟨k, hk⟩ = ⟨e + k * T, T, id⟩) ∧
    pq2 = [⟨e + fires.length * T, T, id⟩] := by
  intro fuel
  induction fuel with
  | zero =>
    intro now e T id pq2 fires h
    simp only [drain] at h
    split at h
    · exact Option.noConfusion h
    · simp only [Option.some.injEq, Prod.mk.injEq] at h
      obtain ⟨rfl, rfl⟩ := h
      refine ⟨?_, by simp⟩
      intro k hk
      simp at hk
  | succ n ih =>
    intro now e T id pq2 fires h
    simp only [drain] at h
    split at h
    · rw [drainNext_singleton] at h
      split at h
      · exact Option.noConfusion h
      · rename_i pq2' fires' hrec
        simp only [Option.some.injEq, Prod.mk.injEq] at h
        obtain ⟨rfl, rfl⟩ := h
        obtain ⟨ihget, ihpq⟩ := ih now (e + T) T id _ fires' hrec
        constructor
        · intro k hk
          cases k with
          | zero =>
            simp [pqTop, nth]
          | succ m =>
            have hm : m < fires'.length := by
              simp at hk
              omega
            have := ihget m hm
            show fires'.get ⟨m, hm⟩ = _
            rw [this]
            have : e + T + m * T = e + (m + 1) * T := by ring
            rw [this]
        · rw [ihpq]
          have : e + T + fires'.length * T = e + (fires'.length + 1) * T := by ring
          rw [this]
          rfl
    · simp only [Option.some.injEq, Prod.mk.injEq] at h
      obtain ⟨rfl, rfl⟩ := h
      refine ⟨?_, by simp⟩
      intro k hk
      simp at hk

/-- C3 (amended): in every Dispatch() drain of a heap ordered timer queue
the callbacks fire in non-decreasing next_expiry order, and the queue stays
heap ordered; but ties between equal next_expiry values are broken by the
binary heap layout of std::priority_queue, not by insertion order (see the
counterexample). -/
theorem c3_timer_order_amended :
    ∀ (beh : Nat → Bool) (term : Bool) (now fuel : Nat)
      (pq pq2 fires : List Timer),
    heapOrd pq →
    drain beh term now fuel pq = some (pq2, fires) →
    List.Chain' (fun x y => x.next_timeout ≤ y.next_timeout) fires ∧
    heapOrd pq2 := by
  intro beh term now fuel pq pq2 fires hord h
  obtain ⟨h1, h2, -⟩ := drain_sorted beh term now fuel pq pq2 fires hord h
  exact ⟨h2, h1⟩

/-- Witness for c3_timer_order_amended on a singleton one-shot timer drain. -/
theorem c3_witness :
    List.Chain' (fun x y : Timer => x.next_timeout ≤ y.next_timeout)
      [⟨1, 1, 0⟩] ∧ heapOrd ([] : List Timer) :=
  c3_timer_order_amended (fun _ => false) false 5 3 [⟨1, 1, 0⟩] [] [⟨1, 1, 0⟩]
    (by intro i hi hlen; simp at hlen; omega) (by decide)

/-- Counterexample for C3 as stated: three AddTimer calls at now = 0 with
timeouts 1, 1, 0 insert timers id 0 and id 1 with the same next_expiry 1
(id 0 inserted before id 1) and timer id 2 with next_expiry 0.  The heap
array after the three pushes is [(0,id2), (1,id1), (1,id0)] (the libstdc++
push_heap layout), and the Dispatch drain at now = 5 with one shot
callbacks fires id 2, then id 1, then id 0: the two timers with equal
next_expiry fire in REVERSE insertion order, refuting stable FIFO tie
breaking. -/
theorem c3_counterexample :
    addTimer (addTimer (addTimer [] 0 1 0) 0 1 1) 0 0 2 =
      [⟨0, 0, 2⟩, ⟨1, 1, 1⟩, ⟨1, 1, 0⟩] ∧
    drain (fun _ => false) false 5 9 [⟨0, 0, 2⟩, ⟨1, 1, 1⟩, ⟨1, 1, 0⟩] =
      some ([], [⟨0, 0, 2⟩, ⟨1, 1, 1⟩, ⟨1, 1, 0⟩]) ∧
    (⟨1, 1, 0⟩ : Timer).next_timeout = (⟨1, 1, 1⟩ : Timer).next_timeout ∧
    (⟨1, 1, 0⟩ : Timer).id < (⟨1, 1, 1⟩ : Timer).id := by decide

/-- C5: a repeating timer added at t0 with timeout T whose callback keeps
returning true is drift free: over any Dispatch drain the k-th firing
(0 indexed k) has scheduled next_expiry t0 + (k + 1) * T, with the
original timeout and callback, and the timer is left requeued at
t0 + (number of fires + 1) * T: the requeue always uses the popped expiry
plus the timeout, never now. -/
theorem c5_drift_free_rescheduling :
    ∀ (t0 T id now fuel : Nat) (pq2 fires : List Timer),
    drain (fun _ => true) false now fuel (addTimer [] t0 T id) =
      some (pq2, fires) →
    (∀ k (hk : k < fires.length),
      (fires.get ⟨k, hk⟩).next_timeout = t0 + (k + 1) * T ∧
      (fires.get ⟨k, hk⟩).timeout = T ∧ (fires.get ⟨k, hk⟩).id = id) ∧
    pq2 = [⟨t0 + (fires.length + 1) * T, T, id⟩] := by
  intro t0 T id now fuel pq2 fires h
  have haddt : addTimer [] t0 T id = [⟨t0 + T, T, id⟩] := rfl
  rw [haddt] at h
  obtain ⟨hget, hpq⟩ := drain_singleton fuel now (t0 + T) T id pq2 fires h
  constructor
  · intro k hk
    rw [hget k hk]
    refine ⟨?_, rfl, rfl⟩
    show t0 + T + k * T = t0 + (k + 1) * T
    ring
  · rw [hpq]
    have harith : t0 + T + fires.length * T = t0 + (fires.length + 1) * T := by
      ring
    rw [harith]

/-- Witness for c5_drift_free_rescheduling: AddTimer(5, cb) at t0 = 0 with
an always true callback, drained at now = 12, fires with scheduled
expiries 5 and 10; the second firing (k = 1) is scheduled at
0 + 2 * 5. -/
theorem c5_witness :
    (([⟨5, 5, 1⟩, ⟨10, 5, 1⟩] : List Timer).get ⟨1, by decide⟩).next_timeout =
      0 + (1 + 1) * 5 :=
  ((c5_drift_free_rescheduling 0 5 1 12 5 [⟨15, 5, 1⟩] [⟨5, 5, 1⟩, ⟨10, 5, 1⟩]
    (by decide)).1 1 (by decide)).1

/-- C8: after a completed drain with terminate unset, Dispatch invokes
exactly one backend wait; its argument is 10000 milliseconds when the
timer queue is empty, and otherwise the top expiry minus the now captured
at the start of the iteration (truncated to whole milliseconds by
duration_cast), clamped below at 1 millisecond; the drain guarantees the
top is strictly beyond now. -/
theorem c8_wait_deadline :
    ∀ (beh : Nat → Bool) (now fuel : Nat) (pq pq1 fires : List Timer)
      (waits : List Nat),
    dispatchTimerPhase beh false now fuel pq = some (pq1, fires, waits) →
    waits = [dispatchWaitMs pq1 now] ∧
    (pq1 = [] → dispatchWaitMs pq1 now = 10000) ∧
    (pq1 ≠ [] → now < (pqTop pq1).next_timeout ∧
      dispatchWaitMs pq1 now =
        max 1 (((pqTop pq1).next_timeout - now) / 1000000)) := by
  intro beh now fuel pq pq1 fires waits h
  simp only [dispatchTimerPhase] at h
  split at h
  · exact Option.noConfusion h
  · rename_i pq1' fires' hdrain
    rw [if_neg (by simp)] at h
    simp only [Option.some.injEq, Prod.mk.injEq] at h
    obtain ⟨rfl, rfl, rfl⟩ := h
    refine ⟨rfl, ?_, ?_⟩
    · intro he
      rw [dispatchWaitMs, if_pos he]
    · intro hne
      have htop := drain_exit beh now fuel pq _ _ hdrain hne
      refine ⟨by omega, ?_⟩
      rw [dispatchWaitMs, if_neg hne]
      show (if ((pqTop pq1').next_timeout - now) / 1000000 < 1 then 1
        else ((pqTop pq1').next_timeout - now) / 1000000) = _
      split <;> omega

/-- Witness for c8_wait_deadline: a due timer (expiry 0) and a pending
timer (expiry 7 ns) at now = 5: one DispatchOne fires, with the 2 ns
difference truncating to 0 ms and clamping to the 1 ms minimum. -/
theorem c8_witness :
    ([1] : List Nat) = [dispatchWaitMs [⟨7, 1, 1⟩] 5] ∧
    (5 < (pqTop [⟨7, 1, 1⟩]).next_timeout ∧
      dispatchWaitMs [⟨7, 1, 1⟩] 5 =
        max 1 (((pqTop [⟨7, 1, 1⟩]).next_timeout - 5) / 1000000)) := by
  have h := c8_wait_deadline (fun _ => false) 5 9 [⟨0, 0, 2⟩, ⟨7, 1, 1⟩]
    [⟨7, 1, 1⟩] [⟨0, 0, 2⟩] [1] (by decide)
  exact ⟨h.1, h.2.2 (by decide)⟩
